import Mathlib

/-!
# Verification of the PFM-DenseBench client-side aggregation engine

Shallow embedding of the aggregation functions of `src/js/leaderboard.js` and
`src/js/performance.js`.  JavaScript objects are modelled as association lists
(`List (String × α)`) in insertion order — `Object.entries` iteration order for
string keys — and `obj[k]` as `List.lookup k` (a JS object cannot hold a
duplicate key, so first-match lookup is exact on well-formed inputs).
JS numbers are modelled as `ℚ`.  A JS operation that can throw
(`undefined.push`) is modelled in the `Option` monad, `none` standing for the
thrown exception.
-/

/-- `MetricObservation` of the data model: `{mean, ci_lower, ci_upper}`. -/
structure MetricObservation where
  mean : ℚ
  ci_lower : ℚ
  ci_upper : ℚ
deriving DecidableEq, Repr

/-- The metric map of one model: metric-name → observation. -/
abbrev Metrics := List (String × MetricObservation)

/-- One dataset's models: model-key → metrics. -/
abbrev ModelsMap := List (String × Metrics)

/-- One method's file: dataset-name → models. -/
abbrev MethodData := List (String × ModelsMap)

/-- The Raw Data Store: method-name → per-method data (`globalData.rawData`). -/
abbrev RawData := List (String × MethodData)

/-- One record of `stats.model_ranks` (the fields the engine reads). -/
structure ModelRank where
  model_key : String
  model_display : String
  avg_rank : ℚ
deriving DecidableEq, Repr

/-- `CONFIG.methods` of leaderboard.js (also `PERF_CONFIG.methods`). -/
def CONFIG_methods : List String :=
  ["frozen", "lora", "dora", "cnn", "transformer"]

/-- `CONFIG.datasetCategories` of leaderboard.js (note the
`kumar`/`Kumar` case-duplicate in the Nuclear list). -/
def lbDatasetCategories : List (String × List String) :=
  [("Nuclear", ["CoNIC2022", "CoNSeP", "cpm15", "cpm17", "kumar", "Kumar",
                "Lizard", "NuCLS", "PanNuke", "TNBC"]),
   ("Gland", ["GlaS", "CRAG", "RINGS"]),
   ("Tissue", ["BCSS", "CoCaHis", "COSAS24", "EBHI", "WSSS4LUAD", "Janowczyk"])]

/-- `PERF_CONFIG.datasetCategories` of performance.js (no `Kumar` entry). -/
def perfDatasetCategories : List (String × List String) :=
  [("Nuclear", ["CoNIC2022", "CoNSeP", "cpm15", "cpm17", "kumar",
                "Lizard", "NuCLS", "PanNuke", "TNBC"]),
   ("Gland", ["GlaS", "CRAG", "RINGS"]),
   ("Tissue", ["BCSS", "CoCaHis", "COSAS24", "EBHI", "WSSS4LUAD", "Janowczyk"])]

/-- Shared body of both `getDatasetCategory` implementations: scan the
configured category lists in order, return the first category whose list
contains the dataset name (exact, case-sensitive), else `"Other"`. -/
def getCategoryIn (cfg : List (String × List String)) (dataset : String) : String :=
  match cfg.find? (fun p => p.2.contains dataset) with
  | some p => p.1
  | none => "Other"

/-- `getDatasetCategory` of leaderboard.js. -/
def getDatasetCategory (dataset : String) : String :=
  getCategoryIn lbDatasetCategories dataset

/-- `getDatasetCategory` of performance.js. -/
def perfGetDatasetCategory (dataset : String) : String :=
  getCategoryIn perfDatasetCategories dataset

/-! ## The stable descending sort

Both files rank by `.sort((a, b) => b.score - a.score)` (resp. `b.mean -
a.mean`).  `Array.prototype.sort` is stable, so the result is the unique
permutation that is non-increasing in the key and keeps elements with equal
keys in their original order.  We embed it as a stable insertion sort: the
head of the list is inserted in front of the first element whose key is not
larger. -/

/-- Insert `x` into `l`, in front of the first element whose key is `≤ key x`. -/
def insertDescBy {α : Type} (key : α → ℚ) (x : α) : List α → List α
  | [] => [x]
  | y :: ys => if key y ≤ key x then x :: y :: ys else y :: insertDescBy key x ys

/-- Stable sort, descending in `key` (the embedding of
`.sort((a, b) => b.key - a.key)`). -/
def sortDescBy {α : Type} (key : α → ℚ) : List α → List α
  | [] => []
  | x :: xs => insertDescBy key x (sortDescBy key xs)

/-- One element of the `scores` array built by the rank-aggregation code:
`{model, score: m.Mean_Dice.mean}`. -/
structure ScoreEntry where
  model : String
  score : ℚ
deriving DecidableEq, Repr

/-- `Object.entries(models).filter(([_, m]) => m.Mean_Dice).map(([model, m]) =>
({model, score: m.Mean_Dice.mean}))` — an object `m.Mean_Dice` is truthy
exactly when the key is present. -/
def scoredEntries (models : ModelsMap) : List ScoreEntry :=
  models.filterMap (fun p =>
    (List.lookup "Mean_Dice" p.2).map (fun o => ⟨p.1, o.mean⟩))

/-- The Rank Aggregator's sorted score list for one (method, dataset) pair:
filter to models with a `Mean_Dice` observation, sort by mean descending
(stable).  This exact code appears in `computeDetailedStats` (lines 184–187)
and again in `computeModelDatasetRanks` (lines 279–282). -/
def rankScores (models : ModelsMap) : List ScoreEntry :=
  sortDescBy ScoreEntry.score (scoredEntries models)

/-- The Rank Aggregator's output: 1-based rank (= sorted position + 1,
`scores.forEach((item, idx) => … idx + 1 …)`) per surviving model. -/
def rankModels (models : ModelsMap) : List (String × ℕ) :=
  (rankScores models).enum.map (fun p => (p.2.model, p.1 + 1))

/-- In-place update of one JS-object entry: pairs whose key is `j` get their
value transformed by `f`, everything else is untouched — a missing key is a
silent no-op. -/
def updateAssoc {β : Type} (l : List (String × β)) (j : String) (f : β → β) :
    List (String × β) :=
  l.map (fun p => if p.1 = j then (p.1, f p.2) else p)

/-! ## `computeDetailedStats` part 1: per-category ranks (lines 163–205) -/

/-- The accumulator entry created for each record of `stats.model_ranks`:
`{model: model_display, overall: avg_rank, Nuclear: [], Gland: [], Tissue: []}`. -/
structure CatEntry where
  model : String
  overall : ℚ
  nuclear : List ℕ
  gland : List ℕ
  tissue : List ℕ
deriving DecidableEq, Repr

/-- `modelCategoryRanks[item.model][category].push(idx + 1)`:
`category` is a key returned by `getDatasetCategory` other than `"Other"`,
so one of the three arrays receives the rank (the final branch is
unreachable at every call site). -/
def CatEntry.pushRank (e : CatEntry) (category : String) (r : ℕ) : CatEntry :=
  if category = "Nuclear" then { e with nuclear := e.nuclear ++ [r] }
  else if category = "Gland" then { e with gland := e.gland ++ [r] }
  else if category = "Tissue" then { e with tissue := e.tissue ++ [r] }
  else e

/-- `if (modelCategoryRanks[item.model]) { …push… }` — guarded in-place update
of an association list: entries whose key differs are untouched, a missing key
is a silent no-op. -/
def updateCatRanks (mcr : List (String × CatEntry)) (model category : String)
    (r : ℕ) : List (String × CatEntry) :=
  mcr.map (fun p => if p.1 = model then (p.1, p.2.pushRank category r) else p)

/-- The body of the per-(method, dataset) loop of lines 178–194: skip `Other`
datasets, rank the models by `Mean_Dice`, push each 1-based rank onto the
model's list for the dataset's category. -/
def processDataset (mcr : List (String × CatEntry)) (dataset : String)
    (models : ModelsMap) : List (String × CatEntry) :=
  if getDatasetCategory dataset = "Other" then mcr
  else
    (rankScores models).enum.foldl
      (fun acc ie =>
        updateCatRanks acc ie.2.model (getDatasetCategory dataset) (ie.1 + 1)) mcr

/-- Initialization loop of lines 167–175. -/
def initCatRanks (modelRanks : List ModelRank) : List (String × CatEntry) :=
  modelRanks.map (fun m => (m.model_key, ⟨m.model_display, m.avg_rank, [], [], []⟩))

/-- The double `for … of Object.entries` fold of lines 178–195. -/
def collectCatRanks (raw : RawData) (init : List (String × CatEntry)) :
    List (String × CatEntry) :=
  raw.foldl (fun acc mp =>
    mp.2.foldl (fun acc2 dp => processDataset acc2 dp.1 dp.2) acc) init

/-- `ranks.length > 0 ? ranks.reduce((a, b) => a + b, 0) / ranks.length : 999`. -/
def avgOr999 (l : List ℕ) : ℚ :=
  if l.length > 0 then (l.sum : ℚ) / (l.length : ℚ) else 999

/-- A finished `modelCategoryRanks` entry, after the averaging loop of
lines 198–205 added the three `{category}Avg` fields. -/
structure CatStats where
  model : String
  overall : ℚ
  nuclear : List ℕ
  gland : List ℕ
  tissue : List ℕ
  nuclearAvg : ℚ
  glandAvg : ℚ
  tissueAvg : ℚ
deriving DecidableEq, Repr

/-- Averaging loop of lines 198–205. -/
def finalizeCatEntry (e : CatEntry) : CatStats :=
  ⟨e.model, e.overall, e.nuclear, e.gland, e.tissue,
   avgOr999 e.nuclear, avgOr999 e.gland, avgOr999 e.tissue⟩

/-- `modelCategoryRanks` as returned by `computeDetailedStats`. -/
def computeModelCategoryRanks (raw : RawData) (modelRanks : List ModelRank) :
    List (String × CatStats) :=
  (collectCatRanks raw (initCatRanks modelRanks)).map
    (fun p => (p.1, finalizeCatEntry p.2))

/-! ## `computeDetailedStats` part 2: cross-method performance (lines 208–235)

`modelMethodPerformance[modelKey][method].push(…)` throws when `method` is not
one of the keys the entry was initialized with (`CONFIG.methods`); the throw
is modelled as `none`. -/

/-- A model's accumulator: method-name → list of `Mean_Dice.mean` values. -/
abbrev PerfAccEntry := List (String × List ℚ)

/-- `modelData[method].push(v)`: `none` when `method` is not a key of the
entry (the JS `undefined.push` TypeError). -/
def pushMethodVal (e : PerfAccEntry) (method : String) (v : ℚ) :
    Option PerfAccEntry :=
  if (List.lookup method e).isSome
  then some (updateAssoc e method (fun l => l ++ [v]))
  else none

/-- The fresh accumulator entry of lines 216–219: one empty list per
configured method. -/
def perfInitEntry : PerfAccEntry :=
  CONFIG_methods.map (fun m => (m, ([] : List ℚ)))

/-- Lines 215–219: ensure the model's entry exists, initializing it with one
empty list per configured method on first sight. -/
def ensurePerfEntry (acc : List (String × PerfAccEntry)) (modelKey : String) :
    List (String × PerfAccEntry) :=
  if (List.lookup modelKey acc).isSome then acc
  else acc ++ [(modelKey, perfInitEntry)]

/-- Lines 215–222: create the entry on first sight of the model, then push
onto its `method` list. -/
def pushPerf (acc : List (String × PerfAccEntry)) (modelKey method : String)
    (v : ℚ) : Option (List (String × PerfAccEntry)) :=
  ((List.lookup modelKey (ensurePerfEntry acc modelKey)).bind (fun e =>
    pushMethodVal e method v)).map (fun e2 =>
      updateAssoc (ensurePerfEntry acc modelKey) modelKey (fun _ => e2))

/-- One model's contribution to the fold of lines 210–225: models without a
`Mean_Dice` metric are skipped (`if (!metrics.Mean_Dice) continue`). -/
def perfStepModel (method : String) (acc3 : List (String × PerfAccEntry))
    (kp : String × Metrics) : Option (List (String × PerfAccEntry)) :=
  match List.lookup "Mean_Dice" kp.2 with
  | none => some acc3
  | some o => pushPerf acc3 kp.1 method o.mean

/-- The triple fold of lines 210–225. -/
def collectPerf (raw : RawData) : Option (List (String × PerfAccEntry)) :=
  raw.foldlM (fun acc mp =>
    mp.2.foldlM (fun acc2 dp => dp.2.foldlM (perfStepModel mp.1) acc2) acc) []

/-- A finished `modelMethodPerformance` entry: the per-method value lists plus
the derived `{method}Avg` fields (`null` — `none` — when the list is empty). -/
structure PerfStats where
  scores : PerfAccEntry
  avgs : List (String × Option ℚ)
deriving DecidableEq, Repr

/-- Averaging loop of lines 228–235.  Every entry holds exactly the
`CONFIG.methods` keys, so the `none` branch of the inner lookup is
unreachable. -/
def finalizePerfEntry (e : PerfAccEntry) : PerfStats :=
  ⟨e, CONFIG_methods.map (fun m =>
    (m, match List.lookup m e with
        | some scores =>
          if scores.length > 0
          then some ((scores.sum) / (scores.length : ℚ)) else none
        | none => none))⟩

/-- `modelMethodPerformance` as returned by `computeDetailedStats` (`none`
when the collection fold throws). -/
def computeModelMethodPerformance (raw : RawData) :
    Option (List (String × PerfStats)) :=
  (collectPerf raw).map (List.map (fun p => (p.1, finalizePerfEntry p.2)))

/-! ## `computeModelDatasetRanks` (lines 251–302) -/

/-- A `modelDatasetRanks` entry: `{model_display, datasets: {}}`;
`datasets` maps a dataset name to the model's average rank on it. -/
structure DatasetRanksEntry where
  model_display : String
  datasets : List (String × ℚ)
deriving DecidableEq, Repr

/-- `obj[k] = v` on a JS object: overwrite in place when the key exists,
append otherwise. -/
def setAssoc {β : Type} (l : List (String × β)) (k : String) (v : β) :
    List (String × β) :=
  if (List.lookup k l).isSome
  then updateAssoc l k (fun _ => v)
  else l ++ [(k, v)]

/-- Lines 263–268 (also performance.js lines 149–154): the `Set` of all
dataset names across methods, iterated in first-insertion order. -/
def allDatasetNames (raw : RawData) : List String :=
  (raw.flatMap (fun mp => mp.2.map Prod.fst)).foldl
    (fun acc d => if d ∈ acc then acc else acc ++ [d]) []

/-- Lines 284–289: ensure `modelRanksByMethod[item.model]` exists (`= []`),
then push the rank. -/
def pushRbm (acc : List (String × List ℕ)) (model : String) (r : ℕ) :
    List (String × List ℕ) :=
  if (List.lookup model acc).isSome
  then updateAssoc acc model (fun rl => rl ++ [r])
  else acc ++ [(model, [r])]

/-- One method's contribution to lines 273–290: skip when the method's file
has no entry for the dataset (`if (!methodData[dataset]) continue`),
otherwise push every ranked model's 1-based rank. -/
def rbmStep (dataset : String) (acc : List (String × List ℕ))
    (mp : String × MethodData) : List (String × List ℕ) :=
  match List.lookup dataset mp.2 with
  | none => acc
  | some models =>
    (rankScores models).enum.foldl
      (fun a2 ie => pushRbm a2 ie.2.model (ie.1 + 1)) acc

/-- Lines 273–290: per-dataset collection of each model's rank under every
method that contains the dataset. -/
def ranksByMethodFor (raw : RawData) (dataset : String) :
    List (String × List ℕ) :=
  raw.foldl (rbmStep dataset) []

/-- Lines 293–299: for each collected model, average its ranks and store the
average under `datasets[dataset]`, guarded by
`if (modelDatasetRanks[modelKey])`. -/
def assignDatasetAvg (mdr : List (String × DatasetRanksEntry))
    (dataset : String) (rbm : List (String × List ℕ)) :
    List (String × DatasetRanksEntry) :=
  rbm.foldl (fun acc rp =>
    if (List.lookup rp.1 acc).isSome then
      updateAssoc acc rp.1 (fun e =>
        { e with datasets := (setAssoc e.datasets dataset
            ((rp.2.sum : ℚ) / (rp.2.length : ℚ))) })
    else acc) mdr

/-- `computeModelDatasetRanks(rawData, modelRanks)` of lines 251–302. -/
def computeModelDatasetRanks (raw : RawData) (modelRanks : List ModelRank) :
    List (String × DatasetRanksEntry) :=
  let init := modelRanks.map (fun m => (m.model_key, (⟨m.model_display, []⟩ : DatasetRanksEntry)))
  (allDatasetNames raw).foldl
    (fun acc ds => assignDatasetAvg acc ds (ranksByMethodFor raw ds)) init

/-! ## `computeDetailedStats` (lines 163–245) -/

/-- The fields of the summary object (`stats.json`) that the aggregation
engine reads; `dataset_sota` and `method_comparison` are passed through to
rendering untouched, so their entries are left abstract here. -/
structure Stats where
  model_ranks : List ModelRank
deriving DecidableEq, Repr

/-- The record returned by `computeDetailedStats`. -/
structure DetailedStats where
  modelCategoryRanks : List (String × CatStats)
  modelMethodPerformance : List (String × PerfStats)
  modelDatasetRanks : List (String × DatasetRanksEntry)
deriving DecidableEq, Repr

/-- `computeDetailedStats(rawData, stats)`; `none` models the one reachable
throw (pushing onto a method key outside `CONFIG.methods`). -/
def computeDetailedStats (raw : RawData) (stats : Stats) :
    Option DetailedStats :=
  (computeModelMethodPerformance raw).map (fun perf =>
    ⟨computeModelCategoryRanks raw stats.model_ranks, perf,
     computeModelDatasetRanks raw stats.model_ranks⟩)

/-! ## `processPerformanceData` of performance.js (lines 145–200) -/

/-- `PERF_CONFIG.metrics` keys, in order. -/
def PERF_metricKeys : List String :=
  ["Mean_Dice", "mIoU", "Pixel_Accuracy", "Mean_Accuracy",
   "Frequency_Weighted_IoU", "Mean_Precision", "Mean_Recall", "Mean_F1"]

/-- One element of the `metricData` array of lines 174–183 (the
presentational `modelDisplay`/`methodDisplay` strings, total lookups into
fixed display tables, are omitted; the numeric payload is kept). -/
structure PerfObs where
  model : String
  method : String
  mean : ℚ
  ci_lower : ℚ
  ci_upper : ℚ
  std : ℚ
deriving DecidableEq, Repr

/-- Lines 169–186: flatten, over methods containing the dataset and models
carrying the metric, every observation of `metricKey` into one list, in
encounter order. -/
def collectMetricData (raw : RawData) (dataset metricKey : String) :
    List PerfObs :=
  raw.flatMap (fun mp =>
    match List.lookup dataset mp.2 with
    | none => []
    | some models =>
      models.filterMap (fun kp =>
        (List.lookup metricKey kp.2).map (fun o =>
          ⟨kp.1, mp.1, o.mean, o.ci_lower, o.ci_upper,
           (o.ci_upper - o.ci_lower) / (2 * (196 / 100 : ℚ))⟩)))

/-- The `{name, data, best}` record of lines 191–195 (minus the display
name): `data` sorted by mean descending (stable), `best` its head or null. -/
structure MetricResult where
  data : List PerfObs
  best : Option PerfObs
deriving DecidableEq, Repr

/-- Lines 166–195 for one (dataset, metric) pair:
`metricData.sort((a, b) => b.mean - a.mean)`, then
`best: metricData.length > 0 ? metricData[0] : null`. -/
def processMetric (raw : RawData) (dataset metricKey : String) : MetricResult :=
  let sorted := sortDescBy PerfObs.mean (collectMetricData raw dataset metricKey)
  ⟨sorted, sorted.head?⟩

/-- One dataset's record in `processed` (display name omitted). -/
structure PerfDatasetEntry where
  category : String
  metrics : List (String × MetricResult)
deriving DecidableEq, Repr

/-- `processPerformanceData(rawData)` of lines 145–200. -/
def processPerformanceData (raw : RawData) : List (String × PerfDatasetEntry) :=
  (allDatasetNames raw).map (fun ds =>
    (ds, ⟨perfGetDatasetCategory ds,
          PERF_metricKeys.map (fun mk => (mk, processMetric raw ds mk))⟩))

/-- All collected ranks of an accumulator entry are below the 999 sentinel
(the invariant behind the "sorts worse than any real rank" policy). -/
def CatEntry.ranksBounded (e : CatEntry) : Prop :=
  (∀ r ∈ e.nuclear, r < 999) ∧ (∀ r ∈ e.gland, r < 999) ∧ (∀ r ∈ e.tissue, r < 999)

/-- The 1-based rank of model `m` inside one (method, dataset) ranking: its
position in the stable-descending score list, plus one (the value
`idx + 1` that the `forEach` loops of lines 189 and 284 hand out).  `none`
when `m` carries no `Mean_Dice` observation there. -/
def rankOf (models : ModelsMap) (m : String) : Option ℕ :=
  ((rankScores models).enum.find? (fun ie => ie.2.model == m)).map
    (fun ie => ie.1 + 1)

/-- The per-method ranks model `m` attains on dataset `ds`: one rank for
each method whose file contains `ds` and ranks `m` (method iteration
order). -/
def ranksFor (raw : RawData) (ds m : String) : List ℕ :=
  raw.filterMap (fun mp =>
    (List.lookup ds mp.2).bind (fun models => rankOf models m))

/-- The value the Cross-Method Rank Averager stores for (model `k`,
dataset `ds`): the mean of the per-method ranks when `k` is ranked under at
least one method, absent otherwise. -/
def dsAvgOpt (raw : RawData) (ds k : String) : Option ℚ :=
  if ranksFor raw ds k = [] then none
  else some (((ranksFor raw ds k).sum : ℚ) / ((ranksFor raw ds k).length : ℚ))

/-- The `Mean_Dice.mean` value model `m` contributes from one dataset's
models object (`none` when the model or the metric is absent there). -/
def dsContrib (models : ModelsMap) (m : String) : Option ℚ :=
  (List.lookup m models).bind (fun ms =>
    (List.lookup "Mean_Dice" ms).map (fun o => o.mean))

/-- All `Mean_Dice.mean` values model `m` carries in one method's file, in
dataset iteration order. -/
def valuesInMd (md : MethodData) (m : String) : List ℚ :=
  md.filterMap (fun dp => dsContrib dp.2 m)

/-- The values the Cross-Method Performance Averager collects for model `m`
under method `meth`: one per dataset of that method's file where the
(model, method) pair appears with a `Mean_Dice` observation. -/
def valuesFor (raw : RawData) (meth m : String) : List ℚ :=
  match List.lookup meth raw with
  | none => []
  | some md => valuesInMd md m

/-- The per-entry shape invariant of the `modelMethodPerformance`
accumulator: every entry holds exactly the configured methods as keys. -/
def perfInv (acc : List (String × PerfAccEntry)) : Prop :=
  ∀ q ∈ acc, ((q.2 : PerfAccEntry).map Prod.fst) = CONFIG_methods

/-- Delete every (method, dataset, model) triple that has no `Mean_Dice`
observation.  The aggregators never read such triples, so pruning them must
not change any output (claim C7's exclusion property). -/
def pruneNoDice (raw : RawData) : RawData :=
  raw.map (fun mp => (mp.1, mp.2.map (fun dp =>
    (dp.1, dp.2.filter (fun kp => (List.lookup "Mean_Dice" kp.2).isSome)))))

/-! ## Concrete example inputs

Small closed instances used to evaluate the definitions (the spec's §8
end-to-end scenario and variants with ties and missing observations). -/

/-- An observation with the given mean (a point interval; written with
`mkRat`, which the kernel evaluates, so that concrete runs can be checked
by `decide`). -/
def exObs (m : ℚ) : MetricObservation := ⟨m, m, m⟩

/-- Three models on one dataset, two of them tied at 1/2. -/
def exTieModels : ModelsMap :=
  [("a", [("Mean_Dice", exObs (mkRat 1 2))]),
   ("b", [("Mean_Dice", exObs (mkRat 1 2))]),
   ("c", [("Mean_Dice", exObs (mkRat 3 4))])]

/-- `frozen.json` of the spec's end-to-end scenario, on the Gland dataset
`GlaS`: m1 → 0.9, m2 → 0.7. -/
def exFrozenData : MethodData :=
  [("GlaS", [("m1", [("Mean_Dice", exObs (mkRat 9 10))]),
             ("m2", [("Mean_Dice", exObs (mkRat 7 10))])])]

/-- `lora.json` of the scenario: m1 → 0.8, m2 → 0.95; plus a model m3 with
no `Mean_Dice` observation. -/
def exLoraData : MethodData :=
  [("GlaS", [("m1", [("Mean_Dice", exObs (mkRat 8 10))]),
             ("m2", [("Mean_Dice", exObs (mkRat 95 100))]),
             ("m3", [("mIoU", exObs (mkRat 1 2))])])]

/-- The two-method raw table of the scenario. -/
def exRaw : RawData := [("frozen", exFrozenData), ("lora", exLoraData)]

/-- The model list of the scenario (m3 is absent: a raw-vs-summary
mismatch). -/
def exModelRanks : List ModelRank := [⟨"m1", "M1", 1⟩, ⟨"m2", "M2", 2⟩]

/-- The summary object of the scenario. -/
def exStats : Stats := ⟨exModelRanks⟩

/-! ## Generic facts about the stable descending sort -/

/-- `insertDescBy` splits the list at the insertion point: the elements passed
over all have a strictly larger key. -/
theorem insertDescBy_decomp {α : Type} (key : α → ℚ) (x : α) (l : List α) :
    ∃ A B, insertDescBy key x l = A ++ x :: B ∧ l = A ++ B ∧
      ∀ a ∈ A, key x < key a := by
  induction l with
  | nil => exact ⟨[], [], rfl, rfl, by simp⟩
  | cons y ys ih =>
    by_cases h : key y ≤ key x
    · exact ⟨[], y :: ys, by simp [insertDescBy, h], rfl, by simp⟩
    · obtain ⟨A, B, h1, h2, h3⟩ := ih
      refine ⟨y :: A, B, ?_, by simp [h2], ?_⟩
      · simp [insertDescBy, h, h1]
      · intro a ha
        rcases List.mem_cons.mp ha with rfl | ha
        · exact not_le.mp h
        · exact h3 a ha

theorem insertDescBy_perm {α : Type} (key : α → ℚ) (x : α) (l : List α) :
    (insertDescBy key x l).Perm (x :: l) := by
  obtain ⟨A, B, h1, h2, _⟩ := insertDescBy_decomp key x l
  rw [h1, h2]
  exact List.perm_middle

/-- The sort is a permutation. -/
theorem sortDescBy_perm {α : Type} (key : α → ℚ) (l : List α) :
    (sortDescBy key l).Perm l := by
  induction l with
  | nil => exact List.Perm.refl _
  | cons x xs ih =>
    exact (insertDescBy_perm key x (sortDescBy key xs)).trans (ih.cons x)

theorem sortDescBy_length {α : Type} (key : α → ℚ) (l : List α) :
    (sortDescBy key l).length = l.length :=
  (sortDescBy_perm key l).length_eq

theorem mem_sortDescBy {α : Type} (key : α → ℚ) (l : List α) (a : α) :
    a ∈ sortDescBy key l ↔ a ∈ l :=
  (sortDescBy_perm key l).mem_iff

/-- Stability, one insertion step: restricted to any single key value the
insertion behaves like `cons`. -/
theorem insertDescBy_filter_key {α : Type} (key : α → ℚ) (c : ℚ) (x : α)
    (l : List α) :
    (insertDescBy key x l).filter (fun a => decide (key a = c)) =
      (x :: l).filter (fun a => decide (key a = c)) := by
  obtain ⟨A, B, h1, h2, h3⟩ := insertDescBy_decomp key x l
  rw [h1, h2]
  by_cases hx : key x = c
  · have hA : A.filter (fun a => decide (key a = c)) = [] := by
      rw [List.filter_eq_nil_iff]
      intro a ha
      simp only [decide_eq_true_eq]
      intro hc
      exact absurd (hx.trans hc.symm) (ne_of_lt (h3 a ha))
  -- with every passed-over element having a different key, both sides reduce
  -- to `x` followed by the matching part of `B`
    simp [List.filter_append, List.filter_cons, hA, hx]
  · simp [List.filter_append, List.filter_cons, hx]

/-- Stability of the sort: for every key value `c`, the elements whose key is
`c` appear in the output in exactly their input order. -/
theorem sortDescBy_filter_key {α : Type} (key : α → ℚ) (c : ℚ) (l : List α) :
    (sortDescBy key l).filter (fun a => decide (key a = c)) =
      l.filter (fun a => decide (key a = c)) := by
  induction l with
  | nil => rfl
  | cons x xs ih =>
    calc (insertDescBy key x (sortDescBy key xs)).filter (fun a => decide (key a = c))
        = (x :: sortDescBy key xs).filter (fun a => decide (key a = c)) :=
          insertDescBy_filter_key key c x _
      _ = (x :: xs).filter (fun a => decide (key a = c)) := by
          simp only [List.filter_cons, ih]

/-- The head of the sorted list is the first input element attaining the
maximal key: every earlier input element has a strictly smaller key, and no
input element has a larger one. -/
theorem sortDescBy_first_max {α : Type} (key : α → ℚ) (l : List α)
    (hl : l ≠ []) :
    ∃ hd tl pre post, sortDescBy key l = hd :: tl ∧ l = pre ++ hd :: post ∧
      (∀ a ∈ pre, key a < key hd) ∧ (∀ a ∈ l, key a ≤ key hd) := by
  induction l with
  | nil => exact absurd rfl hl
  | cons x xs ih =>
    rcases eq_or_ne xs [] with rfl | hxs
    · exact ⟨x, [], [], [], rfl, rfl, by simp, by simp⟩
    · obtain ⟨hd, tl, pre, post, e1, e2, h3, h4⟩ := ih hxs
      by_cases h : key hd ≤ key x
      · refine ⟨x, hd :: tl, [], xs, ?_, by simp, by simp, ?_⟩
        · show insertDescBy key x (sortDescBy key xs) = _
          rw [e1]; simp [insertDescBy, h]
        · intro a ha
          rcases List.mem_cons.mp ha with rfl | ha
          · exact le_refl _
          · exact (h4 a ha).trans h
      · refine ⟨hd, insertDescBy key x tl, x :: pre, post, ?_, by simp [e2], ?_, ?_⟩
        · show insertDescBy key x (sortDescBy key xs) = _
          rw [e1]; simp [insertDescBy, h]
        · intro a ha
          rcases List.mem_cons.mp ha with rfl | ha
          · exact not_le.mp h
          · exact h3 a ha
        · intro a ha
          rcases List.mem_cons.mp ha with rfl | ha
          · exact le_of_lt (not_le.mp h)
          · exact h4 a ha

/-! ## Claim C1: the Rank Aggregator -/

/-- The 1-based positions attached by `forEach((item, idx) => … idx + 1 …)`
to a list of length `n` are `1, 2, …, n`. -/
theorem enumFrom_map_fst_succ {α : Type} (l : List α) (n : ℕ) :
    (List.enumFrom n l).map (fun p => p.1 + 1) = List.range' (n + 1) l.length := by
  induction l generalizing n with
  | nil => rfl
  | cons x xs ih =>
    show (n + 1) :: (List.enumFrom (n + 1) xs).map (fun p => p.1 + 1) = _
    rw [ih, List.length_cons, List.range'_succ]

/-- `k`: the number of models having a `Mean_Dice` observation. -/
theorem scoredEntries_length (models : ModelsMap) :
    (scoredEntries models).length =
      (models.filter (fun p => (List.lookup "Mean_Dice" p.2).isSome)).length := by
  induction models with
  | nil => rfl
  | cons m ms ih =>
    by_cases h : (List.lookup "Mean_Dice" m.2).isSome
    · obtain ⟨o, ho⟩ := Option.isSome_iff_exists.mp h
      simp [scoredEntries, List.filterMap_cons, List.filter_cons, ho,
        scoredEntries] at ih ⊢
      exact ih
    · rw [Option.not_isSome_iff_eq_none] at h
      simp [scoredEntries, List.filterMap_cons, List.filter_cons, h,
        scoredEntries] at ih ⊢
      exact ih

/-- C1.  For every models map of a (method, dataset) pair, the Rank
Aggregator (filter to models with a `Mean_Dice` observation, stable sort by
mean descending, rank = sorted position + 1):
(i) assigns the ranks `1, …, k` where `k` is the number of models with a
`Mean_Dice` observation; (ii) ranks a permutation of exactly the filtered
score entries; (iii) gives rank 1 to an observed model of maximal mean; and
(iv) is stable: for every mean value, the models attaining it stay in their
original iteration order. -/
theorem rankAggregator_correct (models : ModelsMap) :
    ((rankModels models).map Prod.snd = List.range' 1
      (models.filter (fun p => (List.lookup "Mean_Dice" p.2).isSome)).length) ∧
    ((rankScores models).Perm (scoredEntries models)) ∧
    (scoredEntries models ≠ [] →
      ∃ e rest, rankScores models = e :: rest ∧
        (e.model, 1) ∈ rankModels models ∧ e ∈ scoredEntries models ∧
        ∀ e' ∈ scoredEntries models, e'.score ≤ e.score) ∧
    (∀ c : ℚ, (rankScores models).filter (fun e => decide (e.score = c)) =
      (scoredEntries models).filter (fun e => decide (e.score = c))) := by
  refine ⟨?_, sortDescBy_perm _ _, ?_, fun c => sortDescBy_filter_key _ c _⟩
  · show ((rankScores models).enum.map (fun p => (p.2.model, p.1 + 1))).map
      Prod.snd = _
    rw [List.map_map]
    have : ((rankScores models).enum.map (fun p => p.1 + 1)) =
        List.range' 1 (rankScores models).length :=
      enumFrom_map_fst_succ (rankScores models) 0
    rw [show (Prod.snd ∘ fun p : ℕ × ScoreEntry => (p.2.model, p.1 + 1)) =
        (fun p : ℕ × ScoreEntry => p.1 + 1) from rfl, this,
      rankScores, sortDescBy_length, scoredEntries_length]
  · intro hne
    obtain ⟨hd, tl, pre, post, e1, e2, _, h4⟩ :=
      sortDescBy_first_max ScoreEntry.score (scoredEntries models) hne
    refine ⟨hd, tl, e1, ?_, ?_, h4⟩
    · show (hd.model, 1) ∈ (rankScores models).enum.map
        (fun p => (p.2.model, p.1 + 1))
      rw [show rankScores models = hd :: tl from e1]
      exact List.mem_cons_self _ _
    · rw [e2]
      exact List.mem_append_right _ (List.mem_cons_self _ _)

/-- C1 witness: the tied example.  `k = 3`, ranks are `[1, 2, 3]`, rank 1
goes to model `c` (mean 3/4, the maximum), and the tied models `a`, `b`
keep their original order. -/
theorem rankAggregator_correct_witness :
    (rankModels exTieModels).map Prod.snd = List.range' 1 3 ∧
    ∃ e rest, rankScores exTieModels = e :: rest ∧
      (e.model, 1) ∈ rankModels exTieModels ∧ e ∈ scoredEntries exTieModels ∧
      ∀ e' ∈ scoredEntries exTieModels, e'.score ≤ e.score := by
  constructor
  · have h := (rankAggregator_correct exTieModels).1
    rwa [show (exTieModels.filter
      (fun p => (List.lookup "Mean_Dice" p.2).isSome)).length = 3 from rfl] at h
  · exact (rankAggregator_correct exTieModels).2.2.1 (by decide)

/-! ## Claim C2: the two Category Classifiers -/

/-- C2 counterexample: the two classifiers are not the same function.  On the
input `"Kumar"` the leaderboard.js classifier (whose Nuclear list holds the
`kumar`/`Kumar` case-duplicate) answers `"Nuclear"` while the performance.js
classifier (whose Nuclear list omits `Kumar`) answers `"Other"`. -/
theorem categoryClassifier_counterexample :
    getDatasetCategory "Kumar" = "Nuclear" ∧
    perfGetDatasetCategory "Kumar" = "Other" ∧
    getDatasetCategory "Kumar" ≠ perfGetDatasetCategory "Kumar" := by
  refine ⟨rfl, rfl, ?_⟩
  decide

/-- C2 amended.  Each classifier returns the first configured category whose
membership list contains the dataset name exactly (case-sensitively), else
`"Other"`; the two classifiers agree on every dataset name other than
`"Kumar"` (where they differ, see the counterexample). -/
theorem categoryClassifiers_agree_except_Kumar (d : String)
    (hd : d ≠ "Kumar") : getDatasetCategory d = perfGetDatasetCategory d := by
  have hc : (["CoNIC2022", "CoNSeP", "cpm15", "cpm17", "kumar", "Kumar",
                "Lizard", "NuCLS", "PanNuke", "TNBC"] : List String).contains d =
      (["CoNIC2022", "CoNSeP", "cpm15", "cpm17", "kumar",
                "Lizard", "NuCLS", "PanNuke", "TNBC"] : List String).contains d := by
    have h : (d ∈ (["CoNIC2022", "CoNSeP", "cpm15", "cpm17", "kumar", "Kumar",
                "Lizard", "NuCLS", "PanNuke", "TNBC"] : List String)) ↔
        (d ∈ (["CoNIC2022", "CoNSeP", "cpm15", "cpm17", "kumar",
                "Lizard", "NuCLS", "PanNuke", "TNBC"] : List String)) := by
      simp only [List.mem_cons, List.not_mem_nil, or_false]
      constructor
      · rintro (h | h | h | h | h | h | h | h | h | h) <;>
          first | (exact absurd h hd) | tauto
      · tauto
    simp only [List.contains, List.elem_eq_mem, decide_eq_decide]
    exact h
  simp only [getDatasetCategory, perfGetDatasetCategory, getCategoryIn,
    lbDatasetCategories, perfDatasetCategories, List.find?]
  rw [hc]
  cases hco : (["CoNIC2022", "CoNSeP", "cpm15", "cpm17", "kumar",
      "Lizard", "NuCLS", "PanNuke", "TNBC"] : List String).contains d with
  | false => simp only [hco]
  | true => simp only [hco]

/-- C2 witness: on `"GlaS"` (≠ `"Kumar"`) the classifiers agree. -/
theorem categoryClassifiers_agree_witness :
    "GlaS" ≠ "Kumar" ∧ getDatasetCategory "GlaS" = perfGetDatasetCategory "GlaS" :=
  ⟨by decide, categoryClassifiers_agree_except_Kumar "GlaS" (by decide)⟩

/-! ## Claim C3: the Category Rank Averager -/

theorem mem_enumFrom_fst_lt {α : Type} (l : List α) (n : ℕ) (p : ℕ × α)
    (hp : p ∈ List.enumFrom n l) : p.1 < n + l.length := by
  induction l generalizing n with
  | nil => simp [List.enumFrom] at hp
  | cons x xs ih =>
    rcases List.mem_cons.mp hp with rfl | hp
    · simp only [List.length_cons]
      omega
    · have := ih (n + 1) hp
      simp only [List.length_cons]
      omega

theorem pushRank_bounded (e : CatEntry) (cat : String) (r : ℕ)
    (he : e.ranksBounded) (hr : r < 999) : (e.pushRank cat r).ranksBounded := by
  obtain ⟨h1, h2, h3⟩ := he
  have happ : ∀ (l : List ℕ), (∀ x ∈ l, x < 999) → ∀ x ∈ l ++ [r], x < 999 := by
    intro l hl x hx
    rcases List.mem_append.mp hx with hx | hx
    · exact hl x hx
    · rwa [List.mem_singleton.mp hx]
  unfold CatEntry.pushRank CatEntry.ranksBounded
  split_ifs
  · exact ⟨happ _ h1, h2, h3⟩
  · exact ⟨h1, happ _ h2, h3⟩
  · exact ⟨h1, h2, happ _ h3⟩
  · exact ⟨h1, h2, h3⟩

theorem updateCatRanks_bounded (mcr : List (String × CatEntry))
    (model cat : String) (r : ℕ)
    (hmcr : ∀ p ∈ mcr, p.2.ranksBounded) (hr : r < 999) :
    ∀ p ∈ updateCatRanks mcr model cat r, p.2.ranksBounded := by
  intro p hp
  obtain ⟨q, hq, hpq⟩ := List.mem_map.mp hp
  by_cases h : q.1 = model
  · simp only [updateCatRanks, h, if_pos] at hpq
    exact hpq ▸ pushRank_bounded q.2 cat r (hmcr q hq) hr
  · simp only [updateCatRanks, h, if_false] at hpq
    exact hpq ▸ hmcr q hq

theorem foldl_updateCatRanks_bounded (cat : String)
    (L : List (ℕ × ScoreEntry)) (mcr : List (String × CatEntry))
    (hL : ∀ ie ∈ L, ie.1 + 1 < 999) (hmcr : ∀ p ∈ mcr, p.2.ranksBounded) :
    ∀ p ∈ L.foldl
      (fun acc ie => updateCatRanks acc ie.2.model cat (ie.1 + 1)) mcr,
      p.2.ranksBounded := by
  induction L generalizing mcr with
  | nil => exact hmcr
  | cons ie L ih =>
    exact ih _ (fun x hx => hL x (List.mem_cons_of_mem ie hx))
      (updateCatRanks_bounded mcr ie.2.model cat (ie.1 + 1) hmcr
        (hL ie (List.mem_cons_self ie L)))

theorem processDataset_bounded (mcr : List (String × CatEntry))
    (dataset : String) (models : ModelsMap)
    (hlen : (scoredEntries models).length < 999)
    (hmcr : ∀ p ∈ mcr, p.2.ranksBounded) :
    ∀ p ∈ processDataset mcr dataset models, p.2.ranksBounded := by
  unfold processDataset
  split
  · exact hmcr
  · apply foldl_updateCatRanks_bounded _ _ _ _ hmcr
    intro ie hie
    have h1 : ie.1 < 0 + (rankScores models).length :=
      mem_enumFrom_fst_lt (rankScores models) 0 ie hie
    have h2 : (rankScores models).length = (scoredEntries models).length := by
      unfold rankScores
      exact sortDescBy_length _ _
    omega

theorem foldMethodData_bounded (md : MethodData)
    (init : List (String × CatEntry))
    (hmd : ∀ dp ∈ md, (scoredEntries dp.2).length < 999)
    (hinit : ∀ p ∈ init, p.2.ranksBounded) :
    ∀ p ∈ md.foldl (fun acc2 dp => processDataset acc2 dp.1 dp.2) init,
      p.2.ranksBounded := by
  induction md generalizing init with
  | nil => exact hinit
  | cons dp md ih =>
    exact ih _ (fun x hx => hmd x (List.mem_cons_of_mem dp hx))
      (processDataset_bounded init dp.1 dp.2
        (hmd dp (List.mem_cons_self dp md)) hinit)

theorem collectCatRanks_bounded (raw : RawData)
    (init : List (String × CatEntry))
    (hsmall : ∀ mp ∈ raw, ∀ dp ∈ mp.2, (scoredEntries dp.2).length < 999)
    (hinit : ∀ p ∈ init, p.2.ranksBounded) :
    ∀ p ∈ collectCatRanks raw init, p.2.ranksBounded := by
  induction raw generalizing init with
  | nil => exact hinit
  | cons mp raw ih =>
    exact ih _ (fun x hx dp hdp => hsmall x (List.mem_cons_of_mem mp hx) dp hdp)
      (foldMethodData_bounded mp.2 init
        (hsmall mp (List.mem_cons_self mp raw)) hinit)

theorem avgOr999_lt (l : List ℕ) (hl : l ≠ []) (hb : ∀ r ∈ l, r < 999) :
    avgOr999 l < 999 := by
  have hlen : 0 < l.length := List.length_pos.mpr hl
  have hlenq : (0 : ℚ) < (l.length : ℚ) := by exact_mod_cast hlen
  have hNsum : ∀ (L : List ℕ), (∀ r ∈ L, r < 999) → L.sum ≤ L.length * 998 := by
    intro L
    induction L with
    | nil => intro _; simp
    | cons a L ih =>
      intro hL
      have h1 := ih (fun x hx => hL x (List.mem_cons_of_mem a hx))
      have h2 := hL a (List.mem_cons_self a L)
      simp only [List.sum_cons, List.length_cons]
      omega
  have hs : l.sum < 999 * l.length := by
    have := hNsum l hb
    omega
  unfold avgOr999
  rw [if_pos hlen, div_lt_iff₀ hlenq]
  exact_mod_cast hs

theorem avgOr999_of_nil : avgOr999 [] = 999 := rfl

theorem avgOr999_of_ne_nil (l : List ℕ) (hl : l ≠ []) :
    avgOr999 l = (l.sum : ℚ) / (l.length : ℚ) := by
  unfold avgOr999
  rw [if_pos (List.length_pos.mpr hl)]

/-- C3.  For every model entry produced by the Category Rank Averager, each
`{category}Avg` is the arithmetic mean of the ranks collected for that model
in that category when at least one rank was collected and the sentinel 999
when none was; and — under the precondition that every dataset has fewer
than 999 models carrying a `Mean_Dice` observation — every real average is
strictly below 999, so a model with at least one observation in a category
sorts strictly before (ascending) every model with none. -/
theorem categoryRankAverager_correct (raw : RawData)
    (modelRanks : List ModelRank)
    (hsmall : ∀ mp ∈ raw, ∀ dp ∈ mp.2, (scoredEntries dp.2).length < 999) :
    ∀ p ∈ computeModelCategoryRanks raw modelRanks,
      ((p.2.nuclear = [] → p.2.nuclearAvg = 999) ∧
       (p.2.nuclear ≠ [] →
         p.2.nuclearAvg = (p.2.nuclear.sum : ℚ) / (p.2.nuclear.length : ℚ) ∧
         p.2.nuclearAvg < 999)) ∧
      ((p.2.gland = [] → p.2.glandAvg = 999) ∧
       (p.2.gland ≠ [] →
         p.2.glandAvg = (p.2.gland.sum : ℚ) / (p.2.gland.length : ℚ) ∧
         p.2.glandAvg < 999)) ∧
      ((p.2.tissue = [] → p.2.tissueAvg = 999) ∧
       (p.2.tissue ≠ [] →
         p.2.tissueAvg = (p.2.tissue.sum : ℚ) / (p.2.tissue.length : ℚ) ∧
         p.2.tissueAvg < 999)) ∧
      (∀ q ∈ computeModelCategoryRanks raw modelRanks,
        (p.2.nuclear ≠ [] → q.2.nuclear = [] → p.2.nuclearAvg < q.2.nuclearAvg) ∧
        (p.2.gland ≠ [] → q.2.gland = [] → p.2.glandAvg < q.2.glandAvg) ∧
        (p.2.tissue ≠ [] → q.2.tissue = [] → p.2.tissueAvg < q.2.tissueAvg)) := by
  have hbound := collectCatRanks_bounded raw (initCatRanks modelRanks) hsmall
    (by
      intro p hp
      obtain ⟨m, _, rfl⟩ := List.mem_map.mp hp
      exact ⟨by simp, by simp, by simp⟩)
  intro p hp
  obtain ⟨q0, hq0, rfl⟩ := List.mem_map.mp hp
  obtain ⟨hbn, hbg, hbt⟩ := hbound q0 hq0
  simp only [finalizeCatEntry]
  refine ⟨⟨fun h => by rw [h]; rfl, fun h => ⟨avgOr999_of_ne_nil _ h, avgOr999_lt _ h hbn⟩⟩,
    ⟨fun h => by rw [h]; rfl, fun h => ⟨avgOr999_of_ne_nil _ h, avgOr999_lt _ h hbg⟩⟩,
    ⟨fun h => by rw [h]; rfl, fun h => ⟨avgOr999_of_ne_nil _ h, avgOr999_lt _ h hbt⟩⟩,
    ?_⟩
  intro q hq
  obtain ⟨q1, hq1, rfl⟩ := List.mem_map.mp hq
  simp only [finalizeCatEntry]
  refine ⟨fun hpne hqe => ?_, fun hpne hqe => ?_, fun hpne hqe => ?_⟩ <;>
    rw [hqe, avgOr999_of_nil]
  · exact avgOr999_lt _ hpne hbn
  · exact avgOr999_lt _ hpne hbg
  · exact avgOr999_lt _ hpne hbt

/-- C3 witness: on the example table, model m1 has Gland ranks `[1, 2]` and
its GlandAvg is a real average strictly below the 999 sentinel. -/
theorem categoryRankAverager_witness :
    ∃ p, p ∈ computeModelCategoryRanks exRaw exModelRanks ∧
      p.2.gland ≠ [] ∧ p.2.glandAvg < 999 ∧
      p.2.glandAvg = (p.2.gland.sum : ℚ) / (p.2.gland.length : ℚ) := by
  have hval : computeModelCategoryRanks exRaw exModelRanks =
      [("m1", ⟨"M1", 1, [], [1, 2], [],
          avgOr999 [], avgOr999 [1, 2], avgOr999 []⟩),
       ("m2", ⟨"M2", 2, [], [2, 1], [],
          avgOr999 [], avgOr999 [2, 1], avgOr999 []⟩)] := rfl
  have hmem : ("m1", (⟨"M1", 1, [], [1, 2], [],
      avgOr999 [], avgOr999 [1, 2], avgOr999 []⟩ : CatStats)) ∈
      computeModelCategoryRanks exRaw exModelRanks := by
    rw [hval]
    exact List.mem_cons_self _ _
  have h := (categoryRankAverager_correct exRaw exModelRanks (by decide)) _ hmem
  have hg : ([1, 2] : List ℕ) ≠ [] := by decide
  obtain ⟨heq, hlt⟩ := h.2.1.2 hg
  exact ⟨_, hmem, hg, hlt, heq⟩

/-! ## Claim C6: the Best-Result Selector -/

/-- C6.  For every dataset and metric entry produced by
`processPerformanceData`, the `best` field is `null` exactly when no
(method, model) pair in scope carries that metric; otherwise it is an
in-scope observation of maximal mean, and among equal maxima it is the one
encountered first in iteration order (all elements before it have a strictly
smaller mean).  The selector is a pure function of the raw table, hence
deterministic across repeated runs. -/
theorem bestSelector_correct (raw : RawData) :
    ∀ dp ∈ processPerformanceData raw, ∀ mp ∈ dp.2.metrics,
      (mp.2.best = none ↔ collectMetricData raw dp.1 mp.1 = []) ∧
      (∀ b, mp.2.best = some b →
        b ∈ collectMetricData raw dp.1 mp.1 ∧
        (∀ e ∈ collectMetricData raw dp.1 mp.1, e.mean ≤ b.mean) ∧
        ∃ pre post, collectMetricData raw dp.1 mp.1 = pre ++ b :: post ∧
          ∀ e ∈ pre, e.mean < b.mean) := by
  intro dp hdp mp hmp
  obtain ⟨ds, _, rfl⟩ := List.mem_map.mp hdp
  obtain ⟨mk, _, rfl⟩ := List.mem_map.mp hmp
  constructor
  · show (sortDescBy PerfObs.mean (collectMetricData raw ds mk)).head? = none ↔ _
    rw [List.head?_eq_none_iff]
    constructor
    · intro h
      have := sortDescBy_length PerfObs.mean (collectMetricData raw ds mk)
      rw [h] at this
      exact List.length_eq_zero.mp this.symm
    · intro h
      rw [h]
      rfl
  · intro b hb
    have hne : collectMetricData raw ds mk ≠ [] := by
      intro h
      rw [show (processMetric raw ds mk).best =
        (sortDescBy PerfObs.mean (collectMetricData raw ds mk)).head? from rfl,
        h] at hb
      exact Option.noConfusion hb
    obtain ⟨hd, tl, pre, post, e1, e2, h3, h4⟩ :=
      sortDescBy_first_max PerfObs.mean (collectMetricData raw ds mk) hne
    have hbhd : b = hd := by
      have : (processMetric raw ds mk).best =
          (sortDescBy PerfObs.mean (collectMetricData raw ds mk)).head? := rfl
      rw [this, e1] at hb
      exact (Option.some_inj.mp hb).symm
    subst hbhd
    exact ⟨by rw [e2]; exact List.mem_append_right _ (List.mem_cons_self _ _),
      h4, pre, post, e2, h3⟩

/-- C6 witness: on the example table, dataset `GlaS` with metric `Mean_Dice`
has a best observation, it lies in scope, and its mean is maximal. -/
theorem bestSelector_witness :
    ∃ dp, dp ∈ processPerformanceData exRaw ∧ ∃ mp, mp ∈ dp.2.metrics ∧
      ∃ b, mp.2.best = some b ∧ b ∈ collectMetricData exRaw dp.1 mp.1 ∧
        ∀ e ∈ collectMetricData exRaw dp.1 mp.1, e.mean ≤ b.mean := by
  have hdp := List.mem_map_of_mem
    (fun ds => (ds, (⟨perfGetDatasetCategory ds,
      PERF_metricKeys.map (fun mk => (mk, processMetric exRaw ds mk))⟩ :
        PerfDatasetEntry)))
    (show "GlaS" ∈ allDatasetNames exRaw by decide)
  have hmp := List.mem_map_of_mem
    (fun mk => (mk, processMetric exRaw "GlaS" mk))
    (show "Mean_Dice" ∈ PERF_metricKeys by decide)
  have h := bestSelector_correct exRaw _ hdp _ hmp
  have hne : collectMetricData exRaw "GlaS" "Mean_Dice" ≠ [] := by decide
  have hbne : (processMetric exRaw "GlaS" "Mean_Dice").best ≠ none :=
    fun hb => hne (h.1.mp hb)
  obtain ⟨b, hb⟩ := Option.ne_none_iff_exists.mp hbne
  obtain ⟨hbmem, hbmax, _⟩ := h.2 b hb.symm
  exact ⟨_, hdp, _, hmp, b, hb.symm, hbmem, hbmax⟩

/-! ## Claim C9: determinism of the full aggregation -/

/-- C9.  The full aggregation is a pure function of the raw table and the
summary object: two runs on equal inputs return structurally identical
output records (the embedding has no other state to depend on, mirroring
the source, which reads only its arguments and the constant `CONFIG`). -/
theorem computeDetailedStats_deterministic (raw raw2 : RawData)
    (stats stats2 : Stats) (hraw : raw = raw2) (hstats : stats = stats2) :
    computeDetailedStats raw stats = computeDetailedStats raw2 stats2 := by
  rw [hraw, hstats]

/-- C9 witness: the two runs on the example inputs agree. -/
theorem computeDetailedStats_deterministic_witness :
    computeDetailedStats exRaw exStats = computeDetailedStats exRaw exStats :=
  computeDetailedStats_deterministic exRaw exRaw exStats exStats rfl rfl

/-! ## Association-list lemmas (JS-object operations) -/

theorem lookup_cons_eq {β : Type} (k a : String) (b : β) (l : List (String × β)) :
    List.lookup k ((a, b) :: l) = if k = a then some b else List.lookup k l := by
  by_cases h : k = a
  · simp [List.lookup, h]
  · simp [List.lookup, beq_eq_false_iff_ne.mpr h, h]

theorem lookup_updateAssoc {β : Type} (l : List (String × β)) (j : String)
    (f : β → β) (k : String) :
    List.lookup k (updateAssoc l j f) =
      if k = j then (List.lookup k l).map f else List.lookup k l := by
  unfold updateAssoc
  induction l with
  | nil => simp [List.lookup]
  | cons p l ih =>
    obtain ⟨a, b⟩ := p
    simp only [List.map_cons]
    by_cases haj : a = j
    · rw [if_pos (show (a, b).1 = j from haj)]
      simp only [lookup_cons_eq]
      split_ifs with h1 h2 h2
      · rfl
      · exact absurd (h1.trans haj) h2
      · rw [ih, if_pos h2]
      · rw [ih, if_neg h2]
    · rw [if_neg (show ¬(a, b).1 = j from haj)]
      simp only [lookup_cons_eq]
      split_ifs with h1 h2 h2
      · exact absurd (h1.symm.trans h2) haj
      · rfl
      · rw [ih, if_pos h2]
      · rw [ih, if_neg h2]

theorem lookup_append_assoc {β : Type} (l1 l2 : List (String × β)) (k : String) :
    List.lookup k (l1 ++ l2) = ((List.lookup k l1).or (List.lookup k l2)) := by
  induction l1 with
  | nil => simp [List.lookup]
  | cons p l ih =>
    obtain ⟨a, b⟩ := p
    rw [List.cons_append, lookup_cons_eq, lookup_cons_eq]
    by_cases h : k = a
    · rw [if_pos h, if_pos h]
      rfl
    · rw [if_neg h, if_neg h, ih]

theorem lookup_eq_none_iff_keys {β : Type} (l : List (String × β)) (k : String) :
    List.lookup k l = none ↔ k ∉ l.map Prod.fst := by
  induction l with
  | nil => simp [List.lookup]
  | cons p l ih =>
    obtain ⟨a, b⟩ := p
    rw [lookup_cons_eq, List.map_cons, List.mem_cons]
    by_cases h : k = a
    · simp [h]
    · simp only [if_neg h, ih]
      simp [h]

theorem lookup_of_mem_nodup {β : Type} (l : List (String × β)) (k : String)
    (v : β) (hmem : (k, v) ∈ l) (hnd : (l.map Prod.fst).Nodup) :
    List.lookup k l = some v := by
  induction l with
  | nil => simp at hmem
  | cons p l ih =>
    obtain ⟨a, b⟩ := p
    rw [List.map_cons, List.nodup_cons] at hnd
    rw [lookup_cons_eq]
    rcases List.mem_cons.mp hmem with heq | hmem
    · injection heq with h1 h2
      subst h1
      subst h2
      simp
    · have hka : k ≠ a := by
        intro h
        exact hnd.1 (h ▸ List.mem_map.mpr ⟨(k, v), hmem, rfl⟩)
      rw [if_neg hka]
      exact ih hmem hnd.2

theorem mem_of_lookup_eq_some {β : Type} (l : List (String × β)) (k : String)
    (v : β) (h : List.lookup k l = some v) : (k, v) ∈ l := by
  induction l with
  | nil => simp [List.lookup] at h
  | cons p l ih =>
    obtain ⟨a, b⟩ := p
    rw [lookup_cons_eq] at h
    by_cases hka : k = a
    · rw [if_pos hka] at h
      subst hka
      cases h
      exact List.mem_cons_self _ _
    · rw [if_neg hka] at h
      exact List.mem_cons_of_mem _ (ih h)

theorem lookup_filterMap_keyed {β : Type} (D : List String)
    (g : String → Option β) (ds : String) :
    List.lookup ds (D.filterMap (fun d => (g d).map (fun v => (d, v)))) =
      if ds ∈ D then g ds else none := by
  induction D with
  | nil => simp [List.lookup]
  | cons d D ih =>
    rw [List.filterMap_cons]
    by_cases hds : ds = d
    · subst hds
      cases hg : g ds with
      | none =>
        simp only [hg, Option.map_none']
        rw [ih]
        by_cases h : ds ∈ D <;> simp [h, hg]
      | some v =>
        simp only [hg, Option.map_some']
        rw [lookup_cons_eq, if_pos rfl]
        simp [hg]
    · cases hg : g d with
      | none =>
        simp only [hg, Option.map_none']
        rw [ih]
        simp [List.mem_cons, hds]
      | some v =>
        simp only [hg, Option.map_some']
        rw [lookup_cons_eq, if_neg hds, ih]
        simp [List.mem_cons, hds]

/-! ## Claim C4: the Cross-Method Rank Averager -/

theorem keys_updateAssoc {β : Type} (l : List (String × β)) (j : String)
    (f : β → β) :
    (updateAssoc l j f).map Prod.fst = l.map Prod.fst := by
  unfold updateAssoc
  rw [List.map_map]
  apply List.map_congr_left
  intro p _
  by_cases h : p.1 = j <;> simp [h]

theorem lookup_pushRbm (acc : List (String × List ℕ)) (m : String) (r : ℕ)
    (k : String) :
    List.lookup k (pushRbm acc m r) =
      if k = m then some ((List.lookup k acc).getD [] ++ [r])
      else List.lookup k acc := by
  unfold pushRbm
  by_cases hm : (List.lookup m acc).isSome
  · rw [if_pos hm, lookup_updateAssoc]
    by_cases hk : k = m
    · subst hk
      obtain ⟨l, hl⟩ := Option.isSome_iff_exists.mp hm
      rw [if_pos rfl, if_pos rfl, hl]
      rfl
    · rw [if_neg hk, if_neg hk]
  · rw [if_neg hm, lookup_append_assoc]
    by_cases hk : k = m
    · subst hk
      rw [Option.not_isSome_iff_eq_none] at hm
      rw [hm, if_pos rfl, lookup_cons_eq, if_pos rfl]
      rfl
    · rw [if_neg hk]
      have h2 : List.lookup k [(m, [r])] = none := by
        rw [lookup_cons_eq, if_neg hk]
        rfl
      rw [h2, Option.or_none]

theorem pushRbm_keys_nodup (acc : List (String × List ℕ)) (m : String) (r : ℕ)
    (h : (acc.map Prod.fst).Nodup) : ((pushRbm acc m r).map Prod.fst).Nodup := by
  unfold pushRbm
  by_cases hm : (List.lookup m acc).isSome
  · rw [if_pos hm, keys_updateAssoc]
    exact h
  · rw [if_neg hm, List.map_append]
    rw [List.nodup_append]
    refine ⟨h, List.nodup_singleton _, ?_⟩
    intro x hx hx2
    rw [Option.not_isSome_iff_eq_none, lookup_eq_none_iff_keys] at hm
    simp only [List.map_cons, List.map_nil, List.mem_singleton] at hx2
    exact hm (hx2 ▸ hx)

theorem lookup_foldl_pushRbm (L : List (ℕ × ScoreEntry))
    (acc : List (String × List ℕ)) (k : String)
    (hnd : (L.map (fun ie => ie.2.model)).Nodup) :
    List.lookup k (L.foldl (fun a2 ie => pushRbm a2 ie.2.model (ie.1 + 1)) acc) =
      match L.find? (fun ie => ie.2.model == k) with
      | some ie => some ((List.lookup k acc).getD [] ++ [ie.1 + 1])
      | none => List.lookup k acc := by
  induction L generalizing acc with
  | nil => rfl
  | cons ie L ih =>
    rw [List.foldl_cons]
    rw [List.map_cons, List.nodup_cons] at hnd
    by_cases hk : ie.2.model = k
    · rw [@List.find?_cons_of_pos (ℕ × ScoreEntry)
        (fun je => je.2.model == k) ie L (beq_iff_eq.mpr hk)]
      have hnone : List.find? (fun je => je.2.model == k) L = none := by
        rw [List.find?_eq_none]
        intro x hx
        simp only [beq_iff_eq]
        intro hxk
        exact hnd.1 ((hk.trans hxk.symm) ▸ List.mem_map.mpr ⟨x, hx, rfl⟩)
      rw [ih _ hnd.2, hnone, lookup_pushRbm, if_pos hk.symm]
    · rw [@List.find?_cons_of_neg (ℕ × ScoreEntry)
        (fun je => je.2.model == k) ie L (fun h => hk (beq_iff_eq.mp h))]
      rw [ih _ hnd.2]
      have hpu : List.lookup k (pushRbm acc ie.2.model (ie.1 + 1)) =
          List.lookup k acc := by
        rw [lookup_pushRbm, if_neg (fun h => hk h.symm)]
      rw [hpu]

theorem foldl_pushRbm_keys_nodup (L : List (ℕ × ScoreEntry))
    (acc : List (String × List ℕ)) (h : (acc.map Prod.fst).Nodup) :
    ((L.foldl (fun a2 ie => pushRbm a2 ie.2.model (ie.1 + 1)) acc).map
      Prod.fst).Nodup := by
  induction L generalizing acc with
  | nil => exact h
  | cons ie L ih =>
    exact ih _ (pushRbm_keys_nodup acc ie.2.model (ie.1 + 1) h)

theorem scoredEntries_models_sublist (models : ModelsMap) :
    ((scoredEntries models).map ScoreEntry.model).Sublist
      (models.map Prod.fst) := by
  induction models with
  | nil => exact List.Sublist.refl _
  | cons p ms ih =>
    unfold scoredEntries
    rw [List.filterMap_cons]
    cases h : (List.lookup "Mean_Dice" p.2).map (fun o =>
        (⟨p.1, o.mean⟩ : ScoreEntry)) with
    | none =>
      rw [List.map_cons]
      exact (ih).cons _
    | some e =>
      obtain ⟨o, _, rfl⟩ := Option.map_eq_some'.mp h
      rw [List.map_cons, List.map_cons]
      exact (ih).cons₂ _

theorem rankScores_models_nodup (models : ModelsMap)
    (hnd : (models.map Prod.fst).Nodup) :
    (((rankScores models).enum).map (fun ie => ie.2.model)).Nodup := by
  have h1 : ((scoredEntries models).map ScoreEntry.model).Nodup :=
    hnd.sublist (scoredEntries_models_sublist models)
  have h2 : ((rankScores models).map ScoreEntry.model).Nodup :=
    (((sortDescBy_perm ScoreEntry.score (scoredEntries models)).map
      ScoreEntry.model).nodup_iff).mpr h1
  have h3 : ((rankScores models).enum).map (fun ie => ie.2.model) =
      (rankScores models).map ScoreEntry.model := by
    rw [show (fun ie : ℕ × ScoreEntry => ie.2.model) =
      (ScoreEntry.model ∘ Prod.snd) from rfl]
    rw [← List.map_map, List.enum_map_snd]
  rw [h3]
  exact h2

theorem rbmStep_of_none (ds : String) (acc : List (String × List ℕ))
    (mp : String × MethodData) (hl : List.lookup ds mp.2 = none) :
    rbmStep ds acc mp = acc := by
  unfold rbmStep
  rw [hl]

theorem rbmStep_of_some (ds : String) (acc : List (String × List ℕ))
    (mp : String × MethodData) (models : ModelsMap)
    (hl : List.lookup ds mp.2 = some models) :
    rbmStep ds acc mp = (rankScores models).enum.foldl
      (fun a2 ie => pushRbm a2 ie.2.model (ie.1 + 1)) acc := by
  unfold rbmStep
  rw [hl]

theorem lookup_ranksByMethodFor_aux (ds k : String) (raw : RawData)
    (acc : List (String × List ℕ))
    (hnd : ∀ mp ∈ raw, ∀ models, List.lookup ds mp.2 = some models →
      ((models : ModelsMap).map Prod.fst).Nodup) :
    List.lookup k (raw.foldl (rbmStep ds) acc) =
      match List.lookup k acc with
      | some l => some (l ++ ranksFor raw ds k)
      | none => if ranksFor raw ds k = [] then none
                else some (ranksFor raw ds k) := by
  induction raw generalizing acc with
  | nil =>
    show List.lookup k acc = _
    cases h : List.lookup k acc with
    | none => simp [ranksFor]
    | some l => simp [ranksFor]
  | cons mp raw ih =>
    rw [List.foldl_cons]
    cases hl : List.lookup ds mp.2 with
    | none =>
      have hrf : ranksFor (mp :: raw) ds k = ranksFor raw ds k := by
        unfold ranksFor
        rw [List.filterMap_cons, hl]
        simp
      rw [hrf, rbmStep_of_none ds acc mp hl]
      exact ih acc (fun x hx => hnd x (List.mem_cons_of_mem mp hx))
    | some models =>
      have hmnd : (models.map Prod.fst).Nodup :=
        hnd mp (List.mem_cons_self mp raw) models hl
      have hrf : ranksFor (mp :: raw) ds k =
          (rankOf models k).toList ++ ranksFor raw ds k := by
        unfold ranksFor
        rw [List.filterMap_cons, hl]
        cases hr : rankOf models k with
        | none => simp [hr, Option.toList]
        | some r => simp [hr, Option.toList]
      rw [hrf, rbmStep_of_some ds acc mp models hl]
      have hinner := lookup_foldl_pushRbm ((rankScores models).enum) acc k
        (rankScores_models_nodup models hmnd)
      have hro : rankOf models k =
          ((rankScores models).enum.find? (fun ie => ie.2.model == k)).map
            (fun ie => ie.1 + 1) := rfl
      rw [ih _ (fun x hx => hnd x (List.mem_cons_of_mem mp hx))]
      cases hf : (rankScores models).enum.find? (fun ie => ie.2.model == k) with
      | none =>
        rw [hf] at hinner
        rw [hinner, hro, hf]
        simp
      | some ie =>
        rw [hf] at hinner
        rw [hinner, hro, hf]
        cases hacc : List.lookup k acc with
        | none => simp [Option.toList]
        | some l => simp [Option.toList]

theorem ranksByMethodFor_eq (raw : RawData) (ds k : String)
    (hnd : ∀ mp ∈ raw, ∀ models, List.lookup ds mp.2 = some models →
      ((models : ModelsMap).map Prod.fst).Nodup) :
    List.lookup k (ranksByMethodFor raw ds) =
      if ranksFor raw ds k = [] then none else some (ranksFor raw ds k) := by
  have h := lookup_ranksByMethodFor_aux ds k raw [] hnd
  rw [show (List.lookup k ([] : List (String × List ℕ))) = none from rfl] at h
  exact h

theorem ranksByMethodFor_keys_nodup (raw : RawData) (ds : String) :
    ((ranksByMethodFor raw ds).map Prod.fst).Nodup := by
  unfold ranksByMethodFor
  have haux : ∀ (acc : List (String × List ℕ)), (acc.map Prod.fst).Nodup →
      ((raw.foldl (rbmStep ds) acc).map Prod.fst).Nodup := by
    induction raw with
    | nil => intro acc h; exact h
    | cons mp raw ih =>
      intro acc h
      rw [List.foldl_cons]
      cases hl : List.lookup ds mp.2 with
      | none =>
        rw [rbmStep_of_none ds acc mp hl]
        exact ih acc h
      | some models =>
        rw [rbmStep_of_some ds acc mp models hl]
        exact ih _ (foldl_pushRbm_keys_nodup _ acc h)
  exact haux [] List.nodup_nil

theorem setAssoc_of_lookup_none {β : Type} (l : List (String × β)) (k : String)
    (v : β) (h : List.lookup k l = none) : setAssoc l k v = l ++ [(k, v)] := by
  unfold setAssoc
  rw [h]
  rfl

theorem lookup_assignDatasetAvg (rbm : List (String × List ℕ))
    (mdr : List (String × DatasetRanksEntry)) (ds k : String)
    (hnd : (rbm.map Prod.fst).Nodup) :
    List.lookup k (assignDatasetAvg mdr ds rbm) =
      (List.lookup k mdr).map (fun e =>
        match List.lookup k rbm with
        | none => e
        | some ranks => { e with datasets := (setAssoc e.datasets ds
            ((ranks.sum : ℚ) / (ranks.length : ℚ))) }) := by
  unfold assignDatasetAvg
  induction rbm generalizing mdr with
  | nil =>
    cases h : List.lookup k mdr with
    | none => simp [h, List.lookup]
    | some e => simp [h, List.lookup]
  | cons rp rbm ih =>
    rw [List.map_cons, List.nodup_cons] at hnd
    rw [List.foldl_cons]
    by_cases hk : k = rp.1
    · have hrbm : List.lookup k rbm = none := by
        rw [lookup_eq_none_iff_keys]
        exact fun hmem => hnd.1 (hk ▸ hmem)
      have hcons : List.lookup k (rp :: rbm) = some rp.2 := by
        obtain ⟨a, b⟩ := rp
        rw [lookup_cons_eq, if_pos hk]
      rw [ih _ hnd.2, hcons, hrbm]
      by_cases hacc : (List.lookup rp.1 mdr).isSome
      · rw [if_pos hacc, lookup_updateAssoc, if_pos hk]
        cases hmd : List.lookup k mdr with
        | none => rfl
        | some e => rfl
      · rw [if_neg hacc]
        rw [Option.not_isSome_iff_eq_none] at hacc
        rw [hk] at *
        rw [hacc]
        rfl
    · have hcons : List.lookup k (rp :: rbm) = List.lookup k rbm := by
        obtain ⟨a, b⟩ := rp
        rw [lookup_cons_eq, if_neg hk]
      rw [ih _ hnd.2, hcons]
      by_cases hacc : (List.lookup rp.1 mdr).isSome
      · rw [if_pos hacc, lookup_updateAssoc, if_neg hk]
      · rw [if_neg hacc]

theorem mem_foldl_insertD (l : List String) (acc : List String) (x : String) :
    x ∈ l.foldl (fun acc d => if d ∈ acc then acc else acc ++ [d]) acc ↔
      x ∈ acc ∨ x ∈ l := by
  induction l generalizing acc with
  | nil => simp
  | cons d l ih =>
    rw [List.foldl_cons]
    by_cases hd : d ∈ acc
    · rw [if_pos hd, ih]
      constructor
      · rintro (h | h)
        · exact Or.inl h
        · exact Or.inr (List.mem_cons_of_mem d h)
      · rintro (h | h)
        · exact Or.inl h
        · rcases List.mem_cons.mp h with rfl | h
          · exact Or.inl hd
          · exact Or.inr h
    · rw [if_neg hd, ih]
      constructor
      · rintro (h | h)
        · rcases List.mem_append.mp h with h | h
          · exact Or.inl h
          · exact Or.inr (List.mem_cons.mpr (Or.inl (List.mem_singleton.mp h)))
        · exact Or.inr (List.mem_cons_of_mem d h)
      · rintro (h | h)
        · exact Or.inl (List.mem_append_left _ h)
        · rcases List.mem_cons.mp h with rfl | h
          · exact Or.inl (List.mem_append_right _ (List.mem_singleton.mpr rfl))
          · exact Or.inr h

theorem foldl_insertD_nodup (l : List String) (acc : List String)
    (h : acc.Nodup) :
    (l.foldl (fun acc d => if d ∈ acc then acc else acc ++ [d]) acc).Nodup := by
  induction l generalizing acc with
  | nil => exact h
  | cons d l ih =>
    rw [List.foldl_cons]
    by_cases hd : d ∈ acc
    · rw [if_pos hd]
      exact ih acc h
    · rw [if_neg hd]
      refine ih _ ?_
      rw [List.nodup_append]
      exact ⟨h, List.nodup_singleton _,
        fun x hx hx2 => hd ((List.mem_singleton.mp hx2) ▸ hx)⟩

theorem allDatasetNames_nodup (raw : RawData) : (allDatasetNames raw).Nodup :=
  foldl_insertD_nodup _ [] List.nodup_nil

theorem mem_allDatasetNames (raw : RawData) (ds : String) :
    ds ∈ allDatasetNames raw ↔ ∃ mp ∈ raw, ds ∈ mp.2.map Prod.fst := by
  unfold allDatasetNames
  rw [mem_foldl_insertD]
  simp [List.mem_flatMap]

theorem ranksFor_eq_nil_of_not_mem (raw : RawData) (ds k : String)
    (h : ds ∉ allDatasetNames raw) : ranksFor raw ds k = [] := by
  unfold ranksFor
  rw [List.filterMap_eq_nil_iff]
  intro mp hmp
  have : List.lookup ds mp.2 = none := by
    rw [lookup_eq_none_iff_keys]
    intro hmem
    exact h ((mem_allDatasetNames raw ds).mpr ⟨mp, hmp, hmem⟩)
  rw [this]
  rfl

theorem lookup_foldl_assign (raw : RawData) (D : List String)
    (mdr : List (String × DatasetRanksEntry)) (k : String)
    (e0 : DatasetRanksEntry)
    (hndm : ∀ mp ∈ raw, ∀ dp ∈ mp.2, (((dp.2 : ModelsMap).map Prod.fst).Nodup))
    (hD : D.Nodup)
    (hl : List.lookup k mdr = some e0)
    (hfresh : ∀ ds ∈ D, List.lookup ds e0.datasets = none) :
    List.lookup k (D.foldl
      (fun acc ds => assignDatasetAvg acc ds (ranksByMethodFor raw ds)) mdr) =
      some { e0 with datasets := (e0.datasets ++
        D.filterMap (fun ds => (dsAvgOpt raw ds k).map (fun v => (ds, v)))) } := by
  induction D generalizing mdr e0 with
  | nil =>
    rw [List.filterMap_nil, List.append_nil]
    exact hl
  | cons ds D ih =>
    rw [List.foldl_cons]
    rw [List.nodup_cons] at hD
    have hnd2 : ∀ mp ∈ raw, ∀ models, List.lookup ds mp.2 = some models →
        ((models : ModelsMap).map Prod.fst).Nodup := by
      intro mp hmp models hlk
      exact hndm mp hmp (ds, models) (mem_of_lookup_eq_some _ _ _ hlk)
    have hassign := lookup_assignDatasetAvg (ranksByMethodFor raw ds) mdr ds k
      (ranksByMethodFor_keys_nodup raw ds)
    rw [ranksByMethodFor_eq raw ds k hnd2, hl] at hassign
    by_cases hrf : ranksFor raw ds k = []
    · rw [if_pos hrf] at hassign
      simp only [Option.map_some'] at hassign
      have havg : dsAvgOpt raw ds k = none := by
        unfold dsAvgOpt
        rw [if_pos hrf]
      rw [List.filterMap_cons, havg]
      simp only [Option.map_none']
      exact ih _ e0 hD.2 hassign (fun x hx => hfresh x (List.mem_cons_of_mem ds hx))
    · rw [if_neg hrf] at hassign
      simp only [Option.map_some'] at hassign
      rw [setAssoc_of_lookup_none e0.datasets ds _
        (hfresh ds (List.mem_cons_self ds D))] at hassign
      have havg : dsAvgOpt raw ds k =
          some (((ranksFor raw ds k).sum : ℚ) /
            ((ranksFor raw ds k).length : ℚ)) := by
        unfold dsAvgOpt
        rw [if_neg hrf]
      have hfresh2 : ∀ x ∈ D, List.lookup x
          (e0.datasets ++ [(ds, ((ranksFor raw ds k).sum : ℚ) /
            ((ranksFor raw ds k).length : ℚ))]) = none := by
        intro x hx
        rw [lookup_append_assoc, hfresh x (List.mem_cons_of_mem ds hx),
          lookup_cons_eq, if_neg (show ¬x = ds from fun h => hD.1 (h ▸ hx))]
        rfl
      have hrec := ih _ _ hD.2 hassign hfresh2
      rw [hrec, List.filterMap_cons, havg]
      simp only [Option.map_some']
      rw [List.append_assoc, List.singleton_append]

theorem enum_snd_mem {α : Type} (l : List α) (ie : ℕ × α) (h : ie ∈ l.enum) :
    ie.2 ∈ l := by
  have := List.mem_map_of_mem Prod.snd h
  rwa [List.enum_map_snd] at this

theorem rankOf_isSome_iff (models : ModelsMap) (k : String)
    (hnd : (models.map Prod.fst).Nodup) :
    (rankOf models k).isSome ↔
      ∃ ms, List.lookup k models = some ms ∧
        (List.lookup "Mean_Dice" ms).isSome := by
  unfold rankOf
  cases hf : (rankScores models).enum.find? (fun ie => ie.2.model == k) with
  | none =>
    simp only [Option.map_none', Option.isSome_none, Bool.false_eq_true,
      false_iff]
    rintro ⟨ms, hms, hdice⟩
    obtain ⟨o, ho⟩ := Option.isSome_iff_exists.mp hdice
    have hmem : (⟨k, o.mean⟩ : ScoreEntry) ∈ scoredEntries models :=
      List.mem_filterMap.mpr ⟨(k, ms), mem_of_lookup_eq_some _ _ _ hms,
        by rw [ho]; rfl⟩
    rw [← mem_sortDescBy ScoreEntry.score] at hmem
    obtain ⟨ie, hie, hie2⟩ := List.mem_map.mp
      (by rw [List.enum_map_snd]; exact hmem :
        (⟨k, o.mean⟩ : ScoreEntry) ∈ (rankScores models).enum.map Prod.snd)
    have := List.find?_eq_none.mp hf ie hie
    rw [beq_iff_eq] at this
    exact this (by rw [hie2])
  | some ie =>
    simp only [Option.map_some', Option.isSome_some, true_iff]
    have hp := List.find?_some hf
    rw [beq_iff_eq] at hp
    have hmem : ie.2 ∈ scoredEntries models := by
      rw [← mem_sortDescBy ScoreEntry.score]
      exact enum_snd_mem _ ie (List.mem_of_find?_eq_some hf)
    obtain ⟨p, hpmem, hpe⟩ := List.mem_filterMap.mp hmem
    obtain ⟨o, ho, hoe⟩ := Option.map_eq_some'.mp hpe
    refine ⟨p.2, ?_, ?_⟩
    · have hp1 : p.1 = k := by
        rw [← hp, ← hoe]
      exact hp1 ▸ lookup_of_mem_nodup models p.1 p.2
        (by obtain ⟨a, b⟩ := p; exact hpmem) hnd
    · rw [ho]
      rfl

theorem ranksFor_ne_nil_iff (raw : RawData) (ds k : String)
    (hndm : ∀ mp ∈ raw, ∀ dp ∈ mp.2, (((dp.2 : ModelsMap).map Prod.fst).Nodup)) :
    ranksFor raw ds k ≠ [] ↔
      ∃ mp ∈ raw, ∃ models, List.lookup ds mp.2 = some models ∧
        ∃ ms, List.lookup k models = some ms ∧
          (List.lookup "Mean_Dice" ms).isSome := by
  unfold ranksFor
  rw [Ne, List.filterMap_eq_nil_iff]
  push_neg
  constructor
  · rintro ⟨mp, hmp, hne⟩
    cases hlk : List.lookup ds mp.2 with
    | none =>
      rw [hlk] at hne
      exact absurd rfl hne
    | some models =>
      rw [hlk] at hne
      have hs : (rankOf models k).isSome :=
        Option.ne_none_iff_isSome.mp (by simpa using hne)
      obtain ⟨ms, h1, h2⟩ := (rankOf_isSome_iff models k
        (hndm mp hmp (ds, models) (mem_of_lookup_eq_some _ _ _ hlk))).mp hs
      exact ⟨mp, hmp, models, hlk, ms, h1, h2⟩
  · rintro ⟨mp, hmp, models, hlk, ms, h1, h2⟩
    refine ⟨mp, hmp, ?_⟩
    rw [hlk]
    simp only [Option.some_bind]
    exact Option.ne_none_iff_isSome.mpr ((rankOf_isSome_iff models k
      (hndm mp hmp (ds, models) (mem_of_lookup_eq_some _ _ _ hlk))).mpr
      ⟨ms, h1, h2⟩)

/-- C4.  For every model of the supplied list: its `modelDatasetRanks` entry
carries the model's display name, and its `datasets` object has a key for a
dataset exactly when the model has a `Mean_Dice` observation for that
dataset under at least one method; the stored value is the arithmetic mean,
over exactly the methods ranking the model there, of the model's 1-based
rank in that (method, dataset) ranking (`dsAvgOpt`/`ranksFor`); when the
model never appears, the key is absent — no sentinel is stored.
Hypotheses: model keys inside each dataset and the `model_ranks` keys are
unique, as they are in a JS object. -/
theorem crossMethodRankAverager_correct (raw : RawData)
    (modelRanks : List ModelRank)
    (hndm : ∀ mp ∈ raw, ∀ dp ∈ mp.2, (((dp.2 : ModelsMap).map Prod.fst).Nodup))
    (hndr : (modelRanks.map ModelRank.model_key).Nodup) :
    ∀ mr ∈ modelRanks, ∃ e,
      List.lookup mr.model_key (computeModelDatasetRanks raw modelRanks) =
        some e ∧
      e.model_display = mr.model_display ∧
      (∀ ds, List.lookup ds e.datasets = dsAvgOpt raw ds mr.model_key) ∧
      (∀ ds, (ranksFor raw ds mr.model_key ≠ [] ↔
        ∃ mp ∈ raw, ∃ models, List.lookup ds mp.2 = some models ∧
          ∃ ms, List.lookup mr.model_key models = some ms ∧
            (List.lookup "Mean_Dice" ms).isSome)) := by
  intro mr hmr
  have hinit : List.lookup mr.model_key
      (modelRanks.map (fun m =>
        (m.model_key, (⟨m.model_display, []⟩ : DatasetRanksEntry)))) =
      some ⟨mr.model_display, []⟩ := by
    apply lookup_of_mem_nodup
    · exact List.mem_map.mpr ⟨mr, hmr, rfl⟩
    · simpa [List.map_map, Function.comp] using hndr
  have hmain := lookup_foldl_assign raw (allDatasetNames raw) _ mr.model_key
    ⟨mr.model_display, []⟩ hndm (allDatasetNames_nodup raw) hinit
    (fun ds _ => rfl)
  refine ⟨_, hmain, rfl, ?_, ?_⟩
  · intro ds
    show List.lookup ds (([] : List (String × ℚ)) ++
      (allDatasetNames raw).filterMap (fun d =>
        (dsAvgOpt raw d mr.model_key).map (fun v => (d, v)))) = _
    rw [List.nil_append, lookup_filterMap_keyed]
    by_cases hmem : ds ∈ allDatasetNames raw
    · rw [if_pos hmem]
    · rw [if_neg hmem]
      unfold dsAvgOpt
      rw [if_pos (ranksFor_eq_nil_of_not_mem raw ds _ hmem)]
  · intro ds
    exact ranksFor_ne_nil_iff raw ds mr.model_key hndm

/-- C4 witness: on the example table, m1 is ranked 1 under frozen and 2
under lora on `GlaS`, and its stored average is the mean of exactly those
two ranks; m3 (no `Mean_Dice` anywhere) gets no key. -/
theorem crossMethodRankAverager_witness :
    ∃ e, List.lookup "m1" (computeModelDatasetRanks exRaw exModelRanks) =
        some e ∧
      e.model_display = "M1" ∧
      ranksFor exRaw "GlaS" "m1" = [1, 2] ∧
      List.lookup "GlaS" e.datasets =
        some ((([1, 2] : List ℕ).sum : ℚ) / (([1, 2] : List ℕ).length : ℚ)) ∧
      List.lookup "CRAG" e.datasets = none := by
  obtain ⟨e, h1, h2, h3, _⟩ := crossMethodRankAverager_correct exRaw
    exModelRanks (by decide) (by decide) ⟨"m1", "M1", 1⟩
    (List.mem_cons_self _ _)
  have hrf : ranksFor exRaw "GlaS" "m1" = [1, 2] := by decide
  refine ⟨e, h1, h2, hrf, ?_, ?_⟩
  · have := h3 "GlaS"
    rw [this]
    unfold dsAvgOpt
    rw [if_neg (by rw [hrf]; decide), hrf]
  · have := h3 "CRAG"
    rw [this]
    unfold dsAvgOpt
    rw [if_pos (by decide)]

/-! ## Claims C5 and C10: the Cross-Method Performance Averager -/

theorem lookup_isSome_iff_keys {β : Type} (l : List (String × β)) (k : String) :
    (List.lookup k l).isSome ↔ k ∈ l.map Prod.fst := by
  rw [← Option.ne_none_iff_isSome, Ne, lookup_eq_none_iff_keys, not_not]

theorem perfInitEntry_keys : perfInitEntry.map Prod.fst = CONFIG_methods := by
  unfold perfInitEntry
  rw [List.map_map]
  exact List.map_id _

theorem mem_updateAssoc {β : Type} (l : List (String × β)) (j : String)
    (f : β → β) (q : String × β) (hq : q ∈ updateAssoc l j f) :
    q ∈ l ∨ ∃ p ∈ l, q = (p.1, f p.2) := by
  obtain ⟨p, hp, hpq⟩ := List.mem_map.mp hq
  by_cases h : p.1 = j
  · rw [if_pos h] at hpq
    exact Or.inr ⟨p, hp, hpq.symm⟩
  · rw [if_neg h] at hpq
    exact Or.inl (hpq ▸ hp)

theorem updateAssoc_congr {β : Type} (l : List (String × β)) (j : String)
    (f g : β → β) (h : ∀ x, f x = g x) :
    updateAssoc l j f = updateAssoc l j g := by
  unfold updateAssoc
  apply List.map_congr_left
  intro p _
  by_cases hp : p.1 = j
  · rw [if_pos hp, if_pos hp, h]
  · rw [if_neg hp, if_neg hp]

theorem updateAssoc_comp {β : Type} (l : List (String × β)) (j : String)
    (f g : β → β) :
    updateAssoc (updateAssoc l j f) j g = updateAssoc l j (fun x => g (f x)) := by
  unfold updateAssoc
  rw [List.map_map]
  apply List.map_congr_left
  intro p _
  by_cases hp : p.1 = j
  · simp [hp]
  · simp [hp]

theorem lookup_map_pair {β : Type} (D : List String) (g : String → β)
    (x : String) :
    List.lookup x (D.map (fun d => (d, g d))) =
      if x ∈ D then some (g x) else none := by
  induction D with
  | nil => simp [List.lookup]
  | cons d D ih =>
    rw [List.map_cons, lookup_cons_eq]
    by_cases hx : x = d
    · rw [if_pos hx, if_pos (List.mem_cons.mpr (Or.inl hx)), hx]
    · rw [if_neg hx, ih]
      by_cases hx2 : x ∈ D
      · rw [if_pos hx2, if_pos (List.mem_cons_of_mem d hx2)]
      · rw [if_neg hx2, if_neg (fun h => (List.mem_cons.mp h).elim hx hx2)]

theorem lookup_ensurePerfEntry (acc : List (String × PerfAccEntry))
    (modelKey k : String) :
    List.lookup k (ensurePerfEntry acc modelKey) =
      if k = modelKey then some ((List.lookup k acc).getD perfInitEntry)
      else List.lookup k acc := by
  unfold ensurePerfEntry
  by_cases hs : (List.lookup modelKey acc).isSome
  · rw [if_pos hs]
    by_cases hk : k = modelKey
    · subst hk
      obtain ⟨e, he⟩ := Option.isSome_iff_exists.mp hs
      rw [if_pos rfl, he]
      rfl
    · rw [if_neg hk]
  · rw [if_neg hs, lookup_append_assoc]
    by_cases hk : k = modelKey
    · subst hk
      rw [Option.not_isSome_iff_eq_none] at hs
      rw [hs, if_pos rfl, lookup_cons_eq, if_pos rfl]
      rfl
    · rw [if_neg hk, lookup_cons_eq, if_neg hk]
      cases List.lookup k acc <;> rfl

theorem ensurePerfEntry_inv (acc : List (String × PerfAccEntry))
    (modelKey : String) (hinv : perfInv acc) :
    perfInv (ensurePerfEntry acc modelKey) := by
  unfold ensurePerfEntry
  by_cases hs : (List.lookup modelKey acc).isSome
  · rw [if_pos hs]
    exact hinv
  · rw [if_neg hs]
    intro q hq
    rcases List.mem_append.mp hq with hq | hq
    · exact hinv q hq
    · rw [List.mem_singleton.mp hq]
      exact perfInitEntry_keys

theorem pushPerf_spec (acc : List (String × PerfAccEntry))
    (modelKey meth : String) (v : ℚ)
    (hinv : perfInv acc) (hmeth : meth ∈ CONFIG_methods) :
    ∃ acc2, pushPerf acc modelKey meth v = some acc2 ∧ perfInv acc2 ∧
      ∀ k, List.lookup k acc2 =
        if k = modelKey
        then some (updateAssoc ((List.lookup k acc).getD perfInitEntry) meth
          (fun l => l ++ [v]))
        else List.lookup k acc := by
  unfold pushPerf
  have hself := lookup_ensurePerfEntry acc modelKey modelKey
  rw [if_pos rfl] at hself
  rw [hself, Option.some_bind]
  have hekeys : ((List.lookup modelKey acc).getD perfInitEntry).map Prod.fst =
      CONFIG_methods := by
    cases hl : List.lookup modelKey acc with
    | none => exact perfInitEntry_keys
    | some e => exact hinv (modelKey, e) (mem_of_lookup_eq_some _ _ _ hl)
  have hms : (List.lookup meth
      ((List.lookup modelKey acc).getD perfInitEntry)).isSome := by
    rw [lookup_isSome_iff_keys, hekeys]
    exact hmeth
  unfold pushMethodVal
  rw [if_pos hms]
  refine ⟨_, rfl, ?_, ?_⟩
  · intro q hq
    rcases mem_updateAssoc _ _ _ q hq with hq2 | ⟨p, hp, rfl⟩
    · exact ensurePerfEntry_inv acc modelKey hinv q hq2
    · rw [keys_updateAssoc]
      exact hekeys
  · intro k
    rw [lookup_updateAssoc]
    by_cases hk : k = modelKey
    · subst hk
      rw [if_pos rfl, if_pos rfl, hself]
      rfl
    · rw [if_neg hk, if_neg hk, lookup_ensurePerfEntry, if_neg hk]

theorem perfStepModel_spec (meth : String) (acc : List (String × PerfAccEntry))
    (kp : String × Metrics)
    (hinv : perfInv acc) (hmeth : meth ∈ CONFIG_methods) :
    ∃ acc2, perfStepModel meth acc kp = some acc2 ∧ perfInv acc2 ∧
      ∀ k, List.lookup k acc2 =
        match (if kp.1 = k then (List.lookup "Mean_Dice" kp.2).map
            (fun o => o.mean) else none) with
        | none => List.lookup k acc
        | some v => some (updateAssoc ((List.lookup k acc).getD perfInitEntry)
            meth (fun l => l ++ [v])) := by
  unfold perfStepModel
  cases hd : List.lookup "Mean_Dice" kp.2 with
  | none =>
    refine ⟨acc, rfl, hinv, ?_⟩
    intro k
    by_cases hk : kp.1 = k
    · rw [if_pos hk]
      rfl
    · rw [if_neg hk]
  | some o =>
    obtain ⟨acc2, h1, h2, h3⟩ := pushPerf_spec acc kp.1 meth o.mean hinv hmeth
    refine ⟨acc2, h1, h2, ?_⟩
    intro k
    rw [h3 k]
    by_cases hk : kp.1 = k
    · rw [if_pos hk, if_pos hk.symm]
      rfl
    · rw [if_neg hk, if_neg (fun h => hk h.symm)]

theorem foldlM_perfStepModel_spec (meth : String) (models : ModelsMap)
    (acc : List (String × PerfAccEntry))
    (hndk : (models.map Prod.fst).Nodup)
    (hinv : perfInv acc) (hmeth : meth ∈ CONFIG_methods) :
    ∃ acc2, models.foldlM (perfStepModel meth) acc = some acc2 ∧
      perfInv acc2 ∧
      ∀ k, List.lookup k acc2 =
        match dsContrib models k with
        | none => List.lookup k acc
        | some v => some (updateAssoc ((List.lookup k acc).getD perfInitEntry)
            meth (fun l => l ++ [v])) := by
  induction models generalizing acc with
  | nil =>
    refine ⟨acc, rfl, hinv, ?_⟩
    intro k
    rfl
  | cons kp models ih =>
    rw [List.map_cons, List.nodup_cons] at hndk
    obtain ⟨acc1, h1, h2, h3⟩ := perfStepModel_spec meth acc kp hinv hmeth
    obtain ⟨acc2, g1, g2, g3⟩ := ih acc1 hndk.2 h2
    refine ⟨acc2, ?_, g2, ?_⟩
    · rw [List.foldlM_cons, h1]
      exact g1
    · intro k
      obtain ⟨a, ms⟩ := kp
      have hcons : dsContrib ((a, ms) :: models) k =
          if k = a then (List.lookup "Mean_Dice" ms).map (fun o => o.mean)
          else dsContrib models k := by
        unfold dsContrib
        rw [lookup_cons_eq]
        by_cases hk : k = a
        · rw [if_pos hk, if_pos hk]
          rfl
        · rw [if_neg hk, if_neg hk]
      rw [g3 k, hcons]
      by_cases hk : k = a
      · have hnone : dsContrib models k = none := by
          unfold dsContrib
          rw [(lookup_eq_none_iff_keys models k).mpr (fun hm => hndk.1 (hk ▸ hm))]
          rfl
        rw [hnone, if_pos hk]
        show List.lookup k acc1 = _
        rw [h3 k, if_pos hk.symm]
      · rw [if_neg hk]
        cases hdc : dsContrib models k with
        | none =>
          show List.lookup k acc1 = List.lookup k acc
          rw [h3 k, if_neg (fun h => hk h.symm)]
        | some v =>
          show some (updateAssoc ((List.lookup k acc1).getD perfInitEntry)
            meth (fun l => l ++ [v])) = _
          rw [h3 k, if_neg (fun h => hk h.symm)]

theorem foldlM_perfDatasets_spec (meth : String) (md : MethodData)
    (acc : List (String × PerfAccEntry))
    (hndModels : ∀ dp ∈ md, (((dp.2 : ModelsMap).map Prod.fst).Nodup))
    (hinv : perfInv acc) (hmeth : meth ∈ CONFIG_methods) :
    ∃ acc2, md.foldlM (fun a2 dp => dp.2.foldlM (perfStepModel meth) a2) acc =
        some acc2 ∧ perfInv acc2 ∧
      ∀ k, List.lookup k acc2 =
        if valuesInMd md k = [] then List.lookup k acc
        else some (updateAssoc ((List.lookup k acc).getD perfInitEntry) meth
          (fun l => l ++ valuesInMd md k)) := by
  induction md generalizing acc with
  | nil =>
    refine ⟨acc, rfl, hinv, ?_⟩
    intro k
    rw [if_pos (show valuesInMd ([] : MethodData) k = [] from rfl)]
  | cons dp md ih =>
    obtain ⟨acc1, h1, h2, h3⟩ := foldlM_perfStepModel_spec meth dp.2 acc
      (hndModels dp (List.mem_cons_self dp md)) hinv hmeth
    obtain ⟨acc2, g1, g2, g3⟩ := ih acc1
      (fun x hx => hndModels x (List.mem_cons_of_mem dp hx)) h2
    refine ⟨acc2, ?_, g2, ?_⟩
    · rw [List.foldlM_cons, h1]
      exact g1
    · intro k
      have hvc : valuesInMd (dp :: md) k =
          (dsContrib dp.2 k).toList ++ valuesInMd md k := by
        unfold valuesInMd
        rw [List.filterMap_cons]
        cases dsContrib dp.2 k with
        | none => rfl
        | some v => rfl
      rw [g3 k, hvc]
      cases hdc : dsContrib dp.2 k with
      | none =>
        have hl1 : List.lookup k acc1 = List.lookup k acc := by
          rw [h3 k, hdc]
        rw [Option.toList_none, List.nil_append, hl1]
      | some v =>
        have hl1 : List.lookup k acc1 =
            some (updateAssoc ((List.lookup k acc).getD perfInitEntry) meth
              (fun l => l ++ [v])) := by
          rw [h3 k, hdc]
        by_cases hmd : valuesInMd md k = []
        · rw [if_pos hmd, hl1, hmd, Option.toList_some, List.append_nil,
            if_neg (by simp)]
        · rw [if_neg hmd, if_neg (by
            intro h
            rw [Option.toList_some] at h
            exact hmd (List.append_eq_nil.mp h).2), hl1]
          rw [Option.getD_some, updateAssoc_comp]
          rw [updateAssoc_congr _ _ _ (fun l => l ++ ([v] ++ valuesInMd md k))
            (fun l => by rw [List.append_assoc])]
          rw [Option.toList_some]

theorem optmap_append_append (o : Option (List ℚ)) (a b : List ℚ) :
    (o.map (fun l => l ++ a)).map (fun l => l ++ b) =
      o.map (fun l => l ++ (a ++ b)) := by
  cases o with
  | none => rfl
  | some l => simp [List.append_assoc]

theorem optmap_append_nil (o : Option (List ℚ)) :
    o.map (fun l => l ++ ([] : List ℚ)) = o := by
  cases o with
  | none => rfl
  | some l => simp

theorem foldlM_perfMethods_spec (raw : RawData)
    (acc : List (String × PerfAccEntry))
    (hm : ∀ mp ∈ raw, mp.1 ∈ CONFIG_methods)
    (hndMeth : (raw.map Prod.fst).Nodup)
    (hndModels : ∀ mp ∈ raw, ∀ dp ∈ mp.2, (((dp.2 : ModelsMap).map Prod.fst).Nodup))
    (hinv : perfInv acc) :
    ∃ acc2, raw.foldlM (fun a mp =>
        mp.2.foldlM (fun a2 dp => dp.2.foldlM (perfStepModel mp.1) a2) a) acc =
        some acc2 ∧ perfInv acc2 ∧
      ∀ k,
        (∀ e, List.lookup k acc = some e → ∃ e2, List.lookup k acc2 = some e2 ∧
          ∀ meth, List.lookup meth e2 =
            (List.lookup meth e).map (fun l => l ++ valuesFor raw meth k)) ∧
        (List.lookup k acc = none →
          (List.lookup k acc2 = none ∧ ∀ mp ∈ raw, valuesInMd mp.2 k = []) ∨
          (∃ e2, List.lookup k acc2 = some e2 ∧
            (∃ mp ∈ raw, valuesInMd mp.2 k ≠ []) ∧
            ∀ meth, List.lookup meth e2 =
              (List.lookup meth perfInitEntry).map
                (fun l => l ++ valuesFor raw meth k))) := by
  induction raw generalizing acc with
  | nil =>
    refine ⟨acc, rfl, hinv, ?_⟩
    intro k
    constructor
    · intro e he
      refine ⟨e, he, ?_⟩
      intro meth
      rw [show valuesFor [] meth k = [] from rfl, optmap_append_nil]
    · intro hn
      exact Or.inl ⟨hn, fun mp hmp => absurd hmp (List.not_mem_nil mp)⟩
  | cons mp raw ih =>
    rw [List.map_cons, List.nodup_cons] at hndMeth
    obtain ⟨acc1, h1, h2, h3⟩ := foldlM_perfDatasets_spec mp.1 mp.2 acc
      (hndModels mp (List.mem_cons_self mp raw)) hinv
      (hm mp (List.mem_cons_self mp raw))
    obtain ⟨acc2, g1, g2, g3⟩ := ih acc1
      (fun x hx => hm x (List.mem_cons_of_mem mp hx)) hndMeth.2
      (fun x hx => hndModels x (List.mem_cons_of_mem mp hx)) h2
    have hvF : ∀ meth k, valuesFor (mp :: raw) meth k =
        if meth = mp.1 then valuesInMd mp.2 k else valuesFor raw meth k := by
      intro meth k
      unfold valuesFor
      obtain ⟨m1, md⟩ := mp
      rw [lookup_cons_eq]
      by_cases hmeq : meth = m1
      · rw [if_pos hmeq, if_pos hmeq]
      · rw [if_neg hmeq, if_neg hmeq]
    have hvnil : ∀ k, valuesFor raw mp.1 k = [] := by
      intro k
      unfold valuesFor
      rw [(lookup_eq_none_iff_keys raw mp.1).mpr hndMeth.1]
    refine ⟨acc2, ?_, g2, ?_⟩
    · rw [List.foldlM_cons, h1]
      exact g1
    · intro k
      constructor
      · -- entry already present in acc
        intro e he
        by_cases hmd : valuesInMd mp.2 k = []
        · have hl1 : List.lookup k acc1 = some e := by
            rw [h3 k, if_pos hmd, he]
          obtain ⟨e2, he2, hme⟩ := (g3 k).1 e hl1
          refine ⟨e2, he2, ?_⟩
          intro meth
          rw [hme meth, hvF meth k]
          by_cases hmeq : meth = mp.1
          · rw [if_pos hmeq, hmd, hmeq, hvnil k]
          · rw [if_neg hmeq]
        · have hl1 : List.lookup k acc1 = some (updateAssoc e mp.1
              (fun l => l ++ valuesInMd mp.2 k)) := by
            rw [h3 k, if_neg hmd, he]
            rfl
          obtain ⟨e2, he2, hme⟩ := (g3 k).1 _ hl1
          refine ⟨e2, he2, ?_⟩
          intro meth
          rw [hme meth, lookup_updateAssoc, hvF meth k]
          by_cases hmeq : meth = mp.1
          · rw [if_pos hmeq, if_pos hmeq, optmap_append_append, hmeq, hvnil k,
              List.append_nil]
          · rw [if_neg hmeq, if_neg hmeq]
      · -- no entry yet
        intro hn
        by_cases hmd : valuesInMd mp.2 k = []
        · have hl1 : List.lookup k acc1 = none := by
            rw [h3 k, if_pos hmd, hn]
          rcases (g3 k).2 hl1 with ⟨hnone, hall⟩ | ⟨e2, he2, hex, hme⟩
          · refine Or.inl ⟨hnone, ?_⟩
            intro x hx
            rcases List.mem_cons.mp hx with rfl | hx
            · exact hmd
            · exact hall x hx
          · refine Or.inr ⟨e2, he2, ?_, ?_⟩
            · obtain ⟨x, hx, hxne⟩ := hex
              exact ⟨x, List.mem_cons_of_mem mp hx, hxne⟩
            · intro meth
              rw [hme meth, hvF meth k]
              by_cases hmeq : meth = mp.1
              · rw [if_pos hmeq, hmd, hmeq, hvnil k]
              · rw [if_neg hmeq]
        · have hl1 : List.lookup k acc1 = some (updateAssoc perfInitEntry mp.1
              (fun l => l ++ valuesInMd mp.2 k)) := by
            rw [h3 k, if_neg hmd, hn]
            rfl
          obtain ⟨e2, he2, hme⟩ := (g3 k).1 _ hl1
          refine Or.inr ⟨e2, he2,
            ⟨mp, List.mem_cons_self mp raw, hmd⟩, ?_⟩
          intro meth
          rw [hme meth, lookup_updateAssoc, hvF meth k]
          by_cases hmeq : meth = mp.1
          · rw [if_pos hmeq, if_pos hmeq, optmap_append_append, hmeq, hvnil k,
              List.append_nil]
          · rw [if_neg hmeq, if_neg hmeq]

theorem lookup_map_snd {β γ : Type} (l : List (String × β)) (g : β → γ)
    (k : String) :
    List.lookup k (l.map (fun p => (p.1, g p.2))) =
      (List.lookup k l).map g := by
  induction l with
  | nil => simp [List.lookup]
  | cons p l ih =>
    obtain ⟨a, b⟩ := p
    rw [List.map_cons, lookup_cons_eq, lookup_cons_eq]
    by_cases hk : k = a
    · rw [if_pos hk, if_pos hk]
      rfl
    · rw [if_neg hk, if_neg hk, ih]

theorem valuesInMd_ne_nil_iff (md : MethodData) (m : String) :
    valuesInMd md m ≠ [] ↔ ∃ dp ∈ md, (dsContrib dp.2 m).isSome := by
  unfold valuesInMd
  rw [Ne, List.filterMap_eq_nil_iff]
  push_neg
  constructor
  · rintro ⟨dp, hdp, hne⟩
    exact ⟨dp, hdp, Option.ne_none_iff_isSome.mp hne⟩
  · rintro ⟨dp, hdp, hs⟩
    exact ⟨dp, hdp, Option.ne_none_iff_isSome.mpr hs⟩

theorem collectPerf_spec (raw : RawData)
    (hm : ∀ mp ∈ raw, mp.1 ∈ CONFIG_methods)
    (hndMeth : (raw.map Prod.fst).Nodup)
    (hndModels : ∀ mp ∈ raw, ∀ dp ∈ mp.2, (((dp.2 : ModelsMap).map Prod.fst).Nodup)) :
    ∃ acc2, collectPerf raw = some acc2 ∧ perfInv acc2 ∧
      ∀ k,
        (List.lookup k acc2 = none ∧ ∀ mp ∈ raw, valuesInMd mp.2 k = []) ∨
        (∃ e2, List.lookup k acc2 = some e2 ∧
          (∃ mp ∈ raw, valuesInMd mp.2 k ≠ []) ∧
          ∀ meth ∈ CONFIG_methods,
            List.lookup meth e2 = some (valuesFor raw meth k)) := by
  obtain ⟨acc2, h1, h2, h3⟩ := foldlM_perfMethods_spec raw [] hm hndMeth
    hndModels (fun q hq => absurd hq (List.not_mem_nil q))
  refine ⟨acc2, h1, h2, ?_⟩
  intro k
  rcases (h3 k).2 rfl with ⟨hnone, hall⟩ | ⟨e2, he2, hex, hme⟩
  · exact Or.inl ⟨hnone, hall⟩
  · refine Or.inr ⟨e2, he2, hex, ?_⟩
    intro meth hmeth
    rw [hme meth]
    have : List.lookup meth perfInitEntry = some [] := by
      unfold perfInitEntry
      rw [lookup_map_pair, if_pos hmeth]
    rw [this]
    rfl

theorem lookup_avgs_finalize (e : PerfAccEntry) (meth : String)
    (hmeth : meth ∈ CONFIG_methods) :
    List.lookup meth (finalizePerfEntry e).avgs =
      some (match List.lookup meth e with
            | some scores =>
              if scores.length > 0
              then some ((scores.sum) / (scores.length : ℚ)) else none
            | none => none) := by
  simp only [finalizePerfEntry]
  rw [lookup_map_pair, if_pos hmeth]

/-- C5.  For every model with at least one `Mean_Dice` observation and every
configured method: `modelMethodPerformance[model].scores[method]` is exactly
the list of `Mean_Dice.mean` values recorded for that model under that
method (one per dataset where the pair appears, `valuesFor`), and
`{method}Avg` is their arithmetic mean — `null` (`none`), not 999, when the
list is empty.  Hypotheses: the raw table's method keys are the configured
ones and keys are unique per JS-object level. -/
theorem crossMethodPerformanceAverager_correct (raw : RawData)
    (hm : ∀ mp ∈ raw, mp.1 ∈ CONFIG_methods)
    (hndMeth : (raw.map Prod.fst).Nodup)
    (hndModels : ∀ mp ∈ raw, ∀ dp ∈ mp.2, (((dp.2 : ModelsMap).map Prod.fst).Nodup)) :
    ∃ perf, computeModelMethodPerformance raw = some perf ∧
      ∀ m, (∃ mp ∈ raw, valuesInMd mp.2 m ≠ []) →
        ∃ st, List.lookup m perf = some st ∧
          ∀ meth ∈ CONFIG_methods,
            List.lookup meth st.scores = some (valuesFor raw meth m) ∧
            List.lookup meth st.avgs = some
              (if valuesFor raw meth m = [] then none
               else some (((valuesFor raw meth m).sum) /
                 ((valuesFor raw meth m).length : ℚ))) := by
  obtain ⟨acc2, h1, _, h3⟩ := collectPerf_spec raw hm hndMeth hndModels
  refine ⟨acc2.map (fun p => (p.1, finalizePerfEntry p.2)), ?_, ?_⟩
  · unfold computeModelMethodPerformance
    rw [h1]
    rfl
  · intro m hdice
    rcases h3 m with ⟨_, hall⟩ | ⟨e2, he2, _, hme⟩
    · obtain ⟨mp, hmp, hne⟩ := hdice
      exact absurd (hall mp hmp) hne
    · refine ⟨finalizePerfEntry e2, ?_, ?_⟩
      · rw [lookup_map_snd, he2]
        rfl
      · intro meth hmeth
        refine ⟨hme meth hmeth, ?_⟩
        rw [lookup_avgs_finalize e2 meth hmeth, hme meth hmeth]
        by_cases hv : valuesFor raw meth m = []
        · rw [if_pos hv, hv]
          rfl
        · rw [if_neg hv]
          have hlen : (valuesFor raw meth m).length > 0 :=
            List.length_pos.mpr hv
          simp only [hlen, if_pos]

/-- C10.  `modelMethodPerformance` has a key for a model iff the model has
at least one `Mean_Dice` observation under some (method, dataset) in the raw
table; and every present entry has at least one configured method whose
average is non-null — there is no record of all-null averages. -/
theorem perfKeyPresence_correct (raw : RawData)
    (hm : ∀ mp ∈ raw, mp.1 ∈ CONFIG_methods)
    (hndMeth : (raw.map Prod.fst).Nodup)
    (hndModels : ∀ mp ∈ raw, ∀ dp ∈ mp.2, (((dp.2 : ModelsMap).map Prod.fst).Nodup)) :
    ∃ perf, computeModelMethodPerformance raw = some perf ∧
      ∀ m,
        ((List.lookup m perf).isSome ↔
          ∃ mp ∈ raw, ∃ dp ∈ mp.2, (dsContrib dp.2 m).isSome) ∧
        (∀ st, List.lookup m perf = some st →
          ∃ meth ∈ CONFIG_methods, ∃ a : ℚ,
            List.lookup meth st.avgs = some (some a)) := by
  obtain ⟨acc2, h1, _, h3⟩ := collectPerf_spec raw hm hndMeth hndModels
  refine ⟨acc2.map (fun p => (p.1, finalizePerfEntry p.2)), ?_, ?_⟩
  · unfold computeModelMethodPerformance
    rw [h1]
    rfl
  · intro m
    constructor
    · rw [lookup_map_snd]
      rcases h3 m with ⟨hnone, hall⟩ | ⟨e2, he2, hex, _⟩
      · rw [hnone]
        simp only [Option.map_none', Option.isSome_none,
          Bool.false_eq_true, false_iff]
        rintro ⟨mp, hmp, dp, hdp, hds⟩
        have : dsContrib dp.2 m ≠ none := Option.ne_none_iff_isSome.mpr hds
        exact ((valuesInMd_ne_nil_iff mp.2 m).mpr ⟨dp, hdp, hds⟩) (hall mp hmp)
      · rw [he2]
        simp only [Option.map_some', Option.isSome_some, true_iff]
        obtain ⟨mp, hmp, hne⟩ := hex
        obtain ⟨dp, hdp, hds⟩ := (valuesInMd_ne_nil_iff mp.2 m).mp hne
        exact ⟨mp, hmp, dp, hdp, hds⟩
    · intro st hst
      rw [lookup_map_snd] at hst
      rcases h3 m with ⟨hnone, _⟩ | ⟨e2, he2, hex, hme⟩
      · rw [hnone] at hst
        exact absurd hst (by simp)
      · rw [he2] at hst
        have hst2 : st = finalizePerfEntry e2 := by
          injection hst with h
          exact h.symm
        subst hst2
        obtain ⟨mp, hmp, hne⟩ := hex
        have hmeth : mp.1 ∈ CONFIG_methods := hm mp hmp
        have hvf : valuesFor raw mp.1 m = valuesInMd mp.2 m := by
          unfold valuesFor
          rw [lookup_of_mem_nodup raw mp.1 mp.2
            (by obtain ⟨a, b⟩ := mp; exact hmp) hndMeth]
        refine ⟨mp.1, hmeth, ((valuesFor raw mp.1 m).sum) /
          ((valuesFor raw mp.1 m).length : ℚ), ?_⟩
        rw [lookup_avgs_finalize e2 mp.1 hmeth, hme mp.1 hmeth]
        have hlen : (valuesFor raw mp.1 m).length > 0 := by
          rw [hvf]
          exact List.length_pos.mpr hne
        simp only [hlen, if_pos]

/-- C5 witness: on the example table, m1's `frozen` scores are exactly
`[0.9]`, its `frozen` average is non-null, and its `dora` average (no
observations) is `null`. -/
theorem crossMethodPerformanceAverager_witness :
    ∃ perf, computeModelMethodPerformance exRaw = some perf ∧
      ∃ st, List.lookup "m1" perf = some st ∧
        List.lookup "frozen" st.scores = some [mkRat 9 10] ∧
        List.lookup "dora" st.avgs = some none ∧
        ∃ a : ℚ, List.lookup "frozen" st.avgs = some (some a) := by
  obtain ⟨perf, hp, hall⟩ := crossMethodPerformanceAverager_correct exRaw
    (by decide) (by decide) (by decide)
  obtain ⟨st, hst, hms⟩ := hall "m1"
    ⟨("frozen", exFrozenData), List.mem_cons_self _ _, by decide⟩
  obtain ⟨hsc, hav⟩ := hms "frozen" (by decide)
  obtain ⟨_, havd⟩ := hms "dora" (by decide)
  have hvf : valuesFor exRaw "frozen" "m1" = [mkRat 9 10] := by decide
  have hvd : valuesFor exRaw "dora" "m1" = [] := by decide
  refine ⟨perf, hp, st, hst, ?_, ?_, ?_⟩
  · rw [hsc, hvf]
  · rw [havd, if_pos hvd]
  · rw [hav, if_neg (by rw [hvf]; decide)]
    exact ⟨_, rfl⟩

/-- C10 witness: on the example table, m3 (which has only an `mIoU`
observation) is entirely absent from `modelMethodPerformance`, while m1 is
present with a non-null average. -/
theorem perfKeyPresence_witness :
    ∃ perf, computeModelMethodPerformance exRaw = some perf ∧
      List.lookup "m3" perf = none ∧
      ∃ st, List.lookup "m1" perf = some st ∧
        ∃ meth ∈ CONFIG_methods, ∃ a : ℚ,
          List.lookup meth st.avgs = some (some a) := by
  obtain ⟨perf, hp, hall⟩ := perfKeyPresence_correct exRaw
    (by decide) (by decide) (by decide)
  obtain ⟨hiff3, _⟩ := hall "m3"
  obtain ⟨hiff1, hnn⟩ := hall "m1"
  have h3none : List.lookup "m3" perf = none := by
    rw [← Option.not_isSome_iff_eq_none]
    intro hs
    obtain ⟨mp, hmp, dp, hdp, hds⟩ := hiff3.mp hs
    revert hds
    have : ∀ mp ∈ exRaw, ∀ dp ∈ mp.2, ¬(dsContrib dp.2 "m3").isSome := by
      decide
    exact this mp hmp dp hdp
  have h1some : (List.lookup "m1" perf).isSome := by
    rw [hiff1]
    exact ⟨("frozen", exFrozenData), List.mem_cons_self _ _,
      ("GlaS", [("m1", [("Mean_Dice", exObs (mkRat 9 10))]),
                ("m2", [("Mean_Dice", exObs (mkRat 7 10))])]),
      List.mem_cons_self _ _, by decide⟩
  obtain ⟨st, hst⟩ := Option.isSome_iff_exists.mp h1some
  exact ⟨perf, hp, h3none, st, hst, hnn st hst⟩

/-! ## Claim C7: totality on degraded input -/

theorem foldlM_perfStepModel_some (meth : String) (models : ModelsMap)
    (acc : List (String × PerfAccEntry))
    (hinv : perfInv acc) (hmeth : meth ∈ CONFIG_methods) :
    ∃ acc2, models.foldlM (perfStepModel meth) acc = some acc2 ∧
      perfInv acc2 := by
  induction models generalizing acc with
  | nil => exact ⟨acc, rfl, hinv⟩
  | cons kp models ih =>
    obtain ⟨acc1, h1, h2, _⟩ := perfStepModel_spec meth acc kp hinv hmeth
    obtain ⟨acc2, g1, g2⟩ := ih acc1 h2
    refine ⟨acc2, ?_, g2⟩
    rw [List.foldlM_cons, h1]
    exact g1

theorem foldlM_perfDatasets_some (meth : String) (md : MethodData)
    (acc : List (String × PerfAccEntry))
    (hinv : perfInv acc) (hmeth : meth ∈ CONFIG_methods) :
    ∃ acc2, md.foldlM (fun a2 dp => dp.2.foldlM (perfStepModel meth) a2) acc =
      some acc2 ∧ perfInv acc2 := by
  induction md generalizing acc with
  | nil => exact ⟨acc, rfl, hinv⟩
  | cons dp md ih =>
    obtain ⟨acc1, h1, h2⟩ := foldlM_perfStepModel_some meth dp.2 acc hinv hmeth
    obtain ⟨acc2, g1, g2⟩ := ih acc1 h2
    refine ⟨acc2, ?_, g2⟩
    rw [List.foldlM_cons, h1]
    exact g1

theorem collectPerf_isSome (raw : RawData)
    (hm : ∀ mp ∈ raw, mp.1 ∈ CONFIG_methods) :
    ∃ acc2, collectPerf raw = some acc2 := by
  unfold collectPerf
  have haux : ∀ (r : RawData) (acc : List (String × PerfAccEntry)),
      (∀ mp ∈ r, mp.1 ∈ CONFIG_methods) → perfInv acc →
      ∃ acc2, r.foldlM (fun a mp =>
        mp.2.foldlM (fun a2 dp => dp.2.foldlM (perfStepModel mp.1) a2) a) acc =
        some acc2 := by
    intro r
    induction r with
    | nil => exact fun acc _ _ => ⟨acc, rfl⟩
    | cons mp r ih =>
      intro acc hm2 hinv
      obtain ⟨acc1, h1, h2⟩ := foldlM_perfDatasets_some mp.1 mp.2 acc hinv
        (hm2 mp (List.mem_cons_self mp r))
      obtain ⟨acc2, g1⟩ := ih acc1
        (fun x hx => hm2 x (List.mem_cons_of_mem mp hx)) h2
      refine ⟨acc2, ?_⟩
      rw [List.foldlM_cons, h1]
      exact g1
  exact haux raw [] hm (fun q hq => absurd hq (List.not_mem_nil q))

theorem scoredEntries_cons_some (kp : String × Metrics)
    (o : MetricObservation) (models : ModelsMap)
    (ho : List.lookup "Mean_Dice" kp.2 = some o) :
    scoredEntries (kp :: models) =
      (⟨kp.1, o.mean⟩ : ScoreEntry) :: scoredEntries models := by
  unfold scoredEntries
  rw [List.filterMap_cons, ho]
  rfl

theorem scoredEntries_cons_none (kp : String × Metrics) (models : ModelsMap)
    (ho : List.lookup "Mean_Dice" kp.2 = none) :
    scoredEntries (kp :: models) = scoredEntries models := by
  unfold scoredEntries
  rw [List.filterMap_cons, ho]
  rfl

theorem scoredEntries_filter_dice (models : ModelsMap) :
    scoredEntries (models.filter
      (fun kp => (List.lookup "Mean_Dice" kp.2).isSome)) =
      scoredEntries models := by
  induction models with
  | nil => rfl
  | cons kp models ih =>
    rw [List.filter_cons]
    cases hd : List.lookup "Mean_Dice" kp.2 with
    | none =>
      rw [scoredEntries_cons_none kp models hd]
      exact ih
    | some o =>
      rw [scoredEntries_cons_some kp o models hd]
      exact (scoredEntries_cons_some kp o _ hd).trans (congrArg _ ih)

theorem rankScores_filter_dice (models : ModelsMap) :
    rankScores (models.filter
      (fun kp => (List.lookup "Mean_Dice" kp.2).isSome)) = rankScores models := by
  unfold rankScores
  rw [scoredEntries_filter_dice]

theorem processDataset_filter_dice (mcr : List (String × CatEntry))
    (ds : String) (models : ModelsMap) :
    processDataset mcr ds (models.filter
      (fun kp => (List.lookup "Mean_Dice" kp.2).isSome)) =
      processDataset mcr ds models := by
  unfold processDataset
  rw [rankScores_filter_dice]

theorem collectCatRanks_prune (raw : RawData)
    (init : List (String × CatEntry)) :
    collectCatRanks (pruneNoDice raw) init = collectCatRanks raw init := by
  unfold collectCatRanks pruneNoDice
  induction raw generalizing init with
  | nil => rfl
  | cons mp raw ih =>
    rw [List.map_cons, List.foldl_cons, List.foldl_cons]
    have hmd : ∀ (acc : List (String × CatEntry)),
        (mp.2.map (fun dp => (dp.1, dp.2.filter
          (fun kp => (List.lookup "Mean_Dice" kp.2).isSome)))).foldl
          (fun acc2 dp => processDataset acc2 dp.1 dp.2) acc =
        mp.2.foldl (fun acc2 dp => processDataset acc2 dp.1 dp.2) acc := by
      induction mp.2 with
      | nil => intro acc; rfl
      | cons dp md ih2 =>
        intro acc
        rw [List.map_cons, List.foldl_cons, List.foldl_cons,
          processDataset_filter_dice]
        exact ih2 _
    rw [hmd]
    exact ih _

theorem perfStepModel_of_none (meth : String)
    (acc : List (String × PerfAccEntry)) (kp : String × Metrics)
    (hd : List.lookup "Mean_Dice" kp.2 = none) :
    perfStepModel meth acc kp = some acc := by
  unfold perfStepModel
  rw [hd]

theorem foldlM_perfStepModel_filter (meth : String) (models : ModelsMap)
    (acc : List (String × PerfAccEntry)) :
    (models.filter (fun kp => (List.lookup "Mean_Dice" kp.2).isSome)).foldlM
      (perfStepModel meth) acc = models.foldlM (perfStepModel meth) acc := by
  induction models generalizing acc with
  | nil => rfl
  | cons kp models ih =>
    rw [List.filter_cons]
    cases hd : List.lookup "Mean_Dice" kp.2 with
    | none =>
      rw [List.foldlM_cons, perfStepModel_of_none meth acc kp hd]
      show _ = models.foldlM (perfStepModel meth) acc
      exact ih acc
    | some o =>
      show (kp :: _).foldlM (perfStepModel meth) acc = _
      rw [List.foldlM_cons, List.foldlM_cons]
      cases perfStepModel meth acc kp with
      | none => rfl
      | some acc1 =>
        show (List.filter _ models).foldlM (perfStepModel meth) acc1 = _
        exact ih acc1

theorem collectPerf_prune (raw : RawData) :
    collectPerf (pruneNoDice raw) = collectPerf raw := by
  unfold collectPerf pruneNoDice
  have haux : ∀ (r : RawData) (acc : List (String × PerfAccEntry)),
      (r.map (fun mp => (mp.1, mp.2.map (fun dp =>
        (dp.1, dp.2.filter (fun kp =>
          (List.lookup "Mean_Dice" kp.2).isSome)))))).foldlM
        (fun a mp => mp.2.foldlM
          (fun a2 dp => dp.2.foldlM (perfStepModel mp.1) a2) a) acc =
      r.foldlM (fun a mp => mp.2.foldlM
        (fun a2 dp => dp.2.foldlM (perfStepModel mp.1) a2) a) acc := by
    intro r
    induction r with
    | nil => intro acc; rfl
    | cons mp r ih =>
      intro acc
      rw [List.map_cons, List.foldlM_cons, List.foldlM_cons]
      have hmd : ∀ (a : List (String × PerfAccEntry)),
          (mp.2.map (fun dp => (dp.1, dp.2.filter (fun kp =>
            (List.lookup "Mean_Dice" kp.2).isSome)))).foldlM
            (fun a2 dp => dp.2.foldlM (perfStepModel mp.1) a2) a =
          mp.2.foldlM (fun a2 dp => dp.2.foldlM (perfStepModel mp.1) a2) a := by
        induction mp.2 with
        | nil => intro a; rfl
        | cons dp md ih2 =>
          intro a
          rw [List.map_cons, List.foldlM_cons, List.foldlM_cons]
          show ((dp.2.filter _).foldlM (perfStepModel mp.1) a).bind _ = _
          rw [foldlM_perfStepModel_filter]
          cases dp.2.foldlM (perfStepModel mp.1) a with
          | none => rfl
          | some a1 =>
            show (List.map _ md).foldlM _ a1 = md.foldlM _ a1
            exact ih2 a1
      rw [hmd]
      cases hstep : mp.2.foldlM
          (fun a2 dp => dp.2.foldlM (perfStepModel mp.1) a2) acc with
      | none => rfl
      | some acc1 =>
        show (List.map _ r).foldlM _ acc1 = r.foldlM _ acc1
        exact ih acc1
  exact haux raw []

theorem lookup_pruned_method (md : MethodData) (ds : String) :
    List.lookup ds (md.map (fun dp => (dp.1, dp.2.filter (fun kp =>
      (List.lookup "Mean_Dice" kp.2).isSome)))) =
    (List.lookup ds md).map (fun models => models.filter (fun kp =>
      (List.lookup "Mean_Dice" kp.2).isSome)) :=
  lookup_map_snd md _ ds

theorem rbmStep_prune (ds : String) (acc : List (String × List ℕ))
    (mp : String × MethodData) :
    rbmStep ds acc (mp.1, mp.2.map (fun dp => (dp.1, dp.2.filter (fun kp =>
      (List.lookup "Mean_Dice" kp.2).isSome)))) = rbmStep ds acc mp := by
  cases hl : List.lookup ds mp.2 with
  | none =>
    rw [rbmStep_of_none ds acc mp hl,
      rbmStep_of_none ds acc _ (by rw [lookup_pruned_method, hl]; rfl)]
  | some models =>
    rw [rbmStep_of_some ds acc mp models hl,
      rbmStep_of_some ds acc _ _ (by rw [lookup_pruned_method, hl]; rfl),
      rankScores_filter_dice]

theorem ranksByMethodFor_prune (raw : RawData) (ds : String) :
    ranksByMethodFor (pruneNoDice raw) ds = ranksByMethodFor raw ds := by
  unfold ranksByMethodFor pruneNoDice
  have haux : ∀ (r : RawData) (acc : List (String × List ℕ)),
      (r.map (fun mp => (mp.1, mp.2.map (fun dp =>
        (dp.1, dp.2.filter (fun kp =>
          (List.lookup "Mean_Dice" kp.2).isSome)))))).foldl (rbmStep ds) acc =
      r.foldl (rbmStep ds) acc := by
    intro r
    induction r with
    | nil => intro acc; rfl
    | cons mp r ih =>
      intro acc
      rw [List.map_cons, List.foldl_cons, List.foldl_cons, rbmStep_prune]
      exact ih _
  exact haux raw []

theorem allDatasetNames_prune (raw : RawData) :
    allDatasetNames (pruneNoDice raw) = allDatasetNames raw := by
  unfold allDatasetNames pruneNoDice
  have hflat : (raw.map (fun mp => (mp.1, mp.2.map (fun dp =>
      (dp.1, dp.2.filter (fun kp =>
        (List.lookup "Mean_Dice" kp.2).isSome)))))).flatMap
      (fun mp => mp.2.map Prod.fst) =
      raw.flatMap (fun mp => mp.2.map Prod.fst) := by
    induction raw with
    | nil => rfl
    | cons mp raw ih =>
      rw [List.map_cons, List.flatMap_cons, List.flatMap_cons, ih, List.map_map]
      exact congrArg (· ++ _) (List.map_congr_left (fun dp _ => rfl))
  rw [hflat]

theorem computeModelDatasetRanks_prune (raw : RawData)
    (modelRanks : List ModelRank) :
    computeModelDatasetRanks (pruneNoDice raw) modelRanks =
      computeModelDatasetRanks raw modelRanks := by
  unfold computeModelDatasetRanks
  rw [allDatasetNames_prune]
  have haux : ∀ (D : List String) (init : List (String × DatasetRanksEntry)),
      D.foldl (fun acc ds =>
        assignDatasetAvg acc ds (ranksByMethodFor (pruneNoDice raw) ds)) init =
      D.foldl (fun acc ds =>
        assignDatasetAvg acc ds (ranksByMethodFor raw ds)) init := by
    intro D
    induction D with
    | nil => intro init; rfl
    | cons ds D ih =>
      intro init
      rw [List.foldl_cons, List.foldl_cons, ranksByMethodFor_prune]
      exact ih _
  exact haux _ _

theorem computeDetailedStats_prune (raw : RawData) (stats : Stats) :
    computeDetailedStats (pruneNoDice raw) stats =
      computeDetailedStats raw stats := by
  unfold computeDetailedStats computeModelMethodPerformance
    computeModelCategoryRanks
  rw [collectPerf_prune, collectCatRanks_prune,
    computeModelDatasetRanks_prune]

theorem keys_updateCatRanks (mcr : List (String × CatEntry))
    (model cat : String) (r : ℕ) :
    (updateCatRanks mcr model cat r).map Prod.fst = mcr.map Prod.fst := by
  unfold updateCatRanks
  rw [List.map_map]
  apply List.map_congr_left
  intro p _
  by_cases h : p.1 = model <;> simp [h]

theorem keys_processDataset (mcr : List (String × CatEntry)) (ds : String)
    (models : ModelsMap) :
    (processDataset mcr ds models).map Prod.fst = mcr.map Prod.fst := by
  unfold processDataset
  split
  · rfl
  · have haux : ∀ (L : List (ℕ × ScoreEntry)) (acc : List (String × CatEntry)),
        (L.foldl (fun a ie =>
          updateCatRanks a ie.2.model (getDatasetCategory ds) (ie.1 + 1))
          acc).map Prod.fst = acc.map Prod.fst := by
      intro L
      induction L with
      | nil => intro acc; rfl
      | cons ie L ih =>
        intro acc
        rw [List.foldl_cons, ih, keys_updateCatRanks]
    exact haux _ _

theorem keys_collectCatRanks (raw : RawData)
    (init : List (String × CatEntry)) :
    (collectCatRanks raw init).map Prod.fst = init.map Prod.fst := by
  unfold collectCatRanks
  induction raw generalizing init with
  | nil => rfl
  | cons mp raw ih =>
    rw [List.foldl_cons, ih]
    have haux : ∀ (md : MethodData) (acc : List (String × CatEntry)),
        (md.foldl (fun a2 dp => processDataset a2 dp.1 dp.2) acc).map
          Prod.fst = acc.map Prod.fst := by
      intro md
      induction md with
      | nil => intro acc; rfl
      | cons dp md ih2 =>
        intro acc
        rw [List.foldl_cons, ih2, keys_processDataset]
    exact haux _ _

theorem keys_computeModelCategoryRanks (raw : RawData)
    (modelRanks : List ModelRank) :
    (computeModelCategoryRanks raw modelRanks).map Prod.fst =
      modelRanks.map ModelRank.model_key := by
  unfold computeModelCategoryRanks
  rw [List.map_map]
  have h1 : (collectCatRanks raw (initCatRanks modelRanks)).map
      (Prod.fst ∘ fun p => (p.1, finalizeCatEntry p.2)) =
      (collectCatRanks raw (initCatRanks modelRanks)).map Prod.fst :=
    List.map_congr_left (fun p _ => rfl)
  rw [h1, keys_collectCatRanks]
  unfold initCatRanks
  rw [List.map_map]
  exact List.map_congr_left (fun m _ => rfl)

theorem keys_assignDatasetAvg (mdr : List (String × DatasetRanksEntry))
    (ds : String) (rbm : List (String × List ℕ)) :
    (assignDatasetAvg mdr ds rbm).map Prod.fst = mdr.map Prod.fst := by
  unfold assignDatasetAvg
  induction rbm generalizing mdr with
  | nil => rfl
  | cons rp rbm ih =>
    rw [List.foldl_cons]
    by_cases h : (List.lookup rp.1 mdr).isSome
    · rw [if_pos h, ih, keys_updateAssoc]
    · rw [if_neg h, ih]

theorem keys_computeModelDatasetRanks (raw : RawData)
    (modelRanks : List ModelRank) :
    (computeModelDatasetRanks raw modelRanks).map Prod.fst =
      modelRanks.map ModelRank.model_key := by
  unfold computeModelDatasetRanks
  have haux : ∀ (D : List String) (init : List (String × DatasetRanksEntry)),
      (D.foldl (fun acc ds =>
        assignDatasetAvg acc ds (ranksByMethodFor raw ds)) init).map
        Prod.fst = init.map Prod.fst := by
    intro D
    induction D with
    | nil => intro init; rfl
    | cons ds D ih =>
      intro init
      rw [List.foldl_cons, ih, keys_assignDatasetAvg]
  rw [haux]
  rw [List.map_map]
  exact List.map_congr_left (fun m _ => rfl)

/-- C7.  The aggregation engine is total on degraded input: for any raw
table whose method keys are among the configured methods (in particular any
table with arbitrary missing (method, dataset, model, metric) entries) and
any summary, `computeDetailedStats` — and the `computeModelDatasetRanks` it
calls — returns a result rather than throwing; a (method, dataset, model)
triple without a `Mean_Dice` observation is excluded from every fold
(deleting all such triples leaves every output unchanged); and a model
present only in the raw table is silently skipped: the keys of
`modelCategoryRanks` and `modelDatasetRanks` are exactly the keys of
`stats.model_ranks`, whatever the raw table holds. -/
theorem aggregation_total_on_degraded (raw : RawData) (stats : Stats)
    (hm : ∀ mp ∈ raw, mp.1 ∈ CONFIG_methods) :
    (computeDetailedStats raw stats).isSome ∧
    computeDetailedStats (pruneNoDice raw) stats =
      computeDetailedStats raw stats ∧
    ((computeModelCategoryRanks raw stats.model_ranks).map Prod.fst =
      stats.model_ranks.map ModelRank.model_key) ∧
    ((computeModelDatasetRanks raw stats.model_ranks).map Prod.fst =
      stats.model_ranks.map ModelRank.model_key) := by
  refine ⟨?_, computeDetailedStats_prune raw stats,
    keys_computeModelCategoryRanks raw stats.model_ranks,
    keys_computeModelDatasetRanks raw stats.model_ranks⟩
  obtain ⟨acc2, h⟩ := collectPerf_isSome raw hm
  unfold computeDetailedStats computeModelMethodPerformance
  rw [h]
  rfl

/-- C7 witness: the example table (with its metric-less model m3 and its
raw-only models) is aggregated without failure and pruning changes
nothing. -/
theorem aggregation_total_witness :
    (computeDetailedStats exRaw exStats).isSome ∧
    computeDetailedStats (pruneNoDice exRaw) exStats =
      computeDetailedStats exRaw exStats ∧
    ((computeModelCategoryRanks exRaw exStats.model_ranks).map Prod.fst =
      exStats.model_ranks.map ModelRank.model_key) ∧
    ((computeModelDatasetRanks exRaw exStats.model_ranks).map Prod.fst =
      exStats.model_ranks.map ModelRank.model_key) :=
  aggregation_total_on_degraded exRaw exStats (by decide)
